import Mathlib

/-!
Verification development for the DAPManager synchronization and
reconciliation engine.  The Python sources under `src/src/` are shallowly
embedded as executable Lean definitions: the catalog database becomes an
explicit record of lists, filesystem state becomes association lists from
paths to files, and the external collaborators (tag reader, audio
converter) become explicit parameters.  Machine floats appear only in one
threshold comparison, which is modelled by the exact rational comparison it
implements (see `albumModeCond`).
-/

namespace DAP

/-! ## String helpers mirroring Python semantics -/

/-- Python whitespace class `\s` (ASCII part: space, tab, newline, carriage
return, form feed, vertical tab). -/
def isSpaceChar (c : Char) : Bool :=
  c = ' ' || c = '\t' || c = '\n' || c = '\x0d' || c = '\x0c' || c = '\x0b'

/-- Digit class `\d` (ASCII `0`-`9`). -/
def isDigitChar (c : Char) : Bool :=
  '0' ≤ c && c ≤ '9'

/-- `str.lower()` on the character level (ASCII case fold). -/
def lowerChar (c : Char) : Char :=
  if 'A' ≤ c && c ≤ 'Z' then Char.ofNat (c.toNat + 32) else c

def lowerStr (s : List Char) : List Char := s.map lowerChar

/-- `str.strip('"')`: drop every leading and trailing `"` character. -/
def stripQuotes (cs : List Char) : List Char :=
  ((cs.dropWhile (fun c => c = '"')).reverse.dropWhile (fun c => c = '"')).reverse

/-- `str.strip()`: drop leading and trailing whitespace. -/
def stripWs (cs : List Char) : List Char :=
  ((cs.dropWhile isSpaceChar).reverse.dropWhile isSpaceChar).reverse

/-- `path.split("\\")[-1]`: the part after the last backslash. -/
def afterLastBackslash (cs : List Char) : List Char :=
  ((cs.reverse.takeWhile (fun c => c ≠ '\\'))).reverse

/-- Suffix test used for `str.endswith`. -/
def endsWith (suffix cs : List Char) : Bool :=
  suffix.isSuffixOf cs

/-! ### `os.path.splitext`

Mirrors CPython `genericpath._splitext` for the inputs produced here (no
backslashes remain after splitting on them, so treating `/` as the only
separator matches both the posix and the nt flavour): the extension starts
at the last dot of the final path component, and is empty when every
character of that component before the last dot is itself a dot. -/

/-- On the reversed remainder (the part of the final component before the
candidate last dot): is there a character other than `.` before the next
separator / the start of the string?  CPython uses this to refuse an
extension on names such as `".bashrc"` or `"..flac"`. -/
def hasNonDotBeforeSep : List Char → Bool
  | [] => false
  | '/' :: _ => false
  | '.' :: rest => hasNonDotBeforeSep rest
  | _ :: _ => true

/-- Scan the reversed path, accumulating the candidate extension until the
last dot is found. -/
def extOfRev (acc : List Char) : List Char → List Char
  | [] => []
  | '/' :: _ => []
  | '.' :: rest => if hasNonDotBeforeSep rest then '.' :: acc else []
  | c :: rest => extOfRev (c :: acc) rest

/-- `os.path.splitext(base)[1]`. -/
def splitextExt (cs : List Char) : List Char :=
  extOfRev [] cs.reverse

/-! ### The three filename regexes of `clear_dupes.py`

`windows_copy_regex = re.compile(r".+\s\(\d+\)\.[^.]+$", re.IGNORECASE)`,
used with `.search`: because the pattern is anchored with `$` and its tail
`[^.]+` excludes dots, a match exists exactly when the string decomposes as
`front ++ [w] ++ "(" ++ digits ++ ")" ++ "." ++ tail` where the shown dot
is the last dot of the string, `tail` is a non-empty dot-free run, `digits`
is non-empty, `w` is whitespace and `front` contains at least one
character whose last character is not a newline (the `.`-class excludes
newlines).  The scan below works over the reversed string. -/

/-- After the `(`, in reverse: a whitespace character, then at least one
non-newline character (the `.+` of the pattern). -/
def wcAfterParenRev : List Char → Bool
  | w :: c :: _ => isSpaceChar w && c ≠ '\n'
  | _ => false

/-- In reverse after the `)`: one or more digits, then `(`, then the rest.
Digits and `(` are disjoint classes, so greedy consumption is exact. -/
def wcDigitsRev : List Char → Bool
  | c :: rest =>
    if isDigitChar c then
      match rest with
      | '(' :: more => wcAfterParenRev more
      | _ => wcDigitsRev rest
    else false
  | [] => false

/-- In reverse, immediately before the last dot: `)`, digits, `(`, …  -/
def wcBeforeDotRev : List Char → Bool
  | ')' :: rest => wcDigitsRev rest
  | _ => false

/-- Scan the reversed string for the last dot; the characters before it
(in reverse order, i.e. the extension) must be non-empty and dot-free. -/
def wcFindDotRev : List Char → Bool
  | [] => false
  | '.' :: rest => wcBeforeDotRev rest
  | _ :: rest => wcFindDotRev rest

/-- `windows_copy_regex.search(base)` as a Boolean. -/
def windowsCopyMatch (cs : List Char) : Bool :=
  match cs.reverse with
  | [] => false
  | '.' :: _ => false
  | _ :: rest => wcFindDotRev rest

/-!
`track_num_regex = re.compile(r"^\s*\d+\s*[-–—]\s*.+")`, used with
`.match` (anchored at the start, no end anchor).  The classes
whitespace / digit / dash are pairwise disjoint, so the leading
`\s*\d+\s*[-–—]` part matches deterministically by maximal munch; the
final `\s*.+` succeeds on a remainder iff, skipping any number of leading
whitespace characters, a non-newline character remains.
-/

/-- `\s*.+` on the remainder after the dash. -/
def tnTail : List Char → Bool
  | [] => false
  | c :: rest => (c ≠ '\n') || (isSpaceChar c && tnTail rest)

def isDashChar (c : Char) : Bool :=
  c = '-' || c = '–' || c = '—'

/-- `track_num_regex.match(base)` as a Boolean. -/
def trackNumMatch (cs : List Char) : Bool :=
  let afterWs := cs.dropWhile isSpaceChar
  let digits := afterWs.takeWhile isDigitChar
  let afterDigits := afterWs.dropWhile isDigitChar
  if digits.isEmpty then false
  else
    match afterDigits.dropWhile isSpaceChar with
    | d :: rest => isDashChar d && tnTail rest
    | [] => false

/-!
`feat_regex = re.compile(r".+\s\(feat\..+\)\.[^.]+$", re.IGNORECASE)`,
used with `.search`.  As for the copy pattern, the `$`-anchored dot-free
tail pins the explicit `\.` to the last dot of the string; a `)` must
precede it, then (scanning leftwards through the non-empty inner `.+`,
whose characters may not be newlines) the literal `(feat.`
(case-insensitively), a whitespace character and at least one further
non-newline character.
-/

def charCI (c target : Char) : Bool :=
  lowerChar c = target

/-- Reversed occurrence of `"(feat."` followed (leftwards) by whitespace
and one non-newline character: the reversed literal is `".taef("`. -/
def featHeadRev : List Char → Bool
  | '.' :: t :: a :: e :: f :: '(' :: w :: c :: _ =>
    charCI t 't' && charCI a 'a' && charCI e 'e' && charCI f 'f' &&
      isSpaceChar w && c ≠ '\n'
  | _ => false

/-- Consume at least one inner `.+` character (non-newline), looking for
the `"(feat."` block at every split point. -/
def featScanRev : List Char → Bool
  | [] => false
  | c :: rest => c ≠ '\n' && (featHeadRev rest || featScanRev rest)

def featBeforeDotRev : List Char → Bool
  | ')' :: rest => featScanRev rest
  | _ => false

def featFindDotRev : List Char → Bool
  | [] => false
  | '.' :: rest => featBeforeDotRev rest
  | _ :: rest => featFindDotRev rest

/-- `feat_regex.search(base)` as a Boolean. -/
def featMatch (cs : List Char) : Bool :=
  match cs.reverse with
  | [] => false
  | '.' :: _ => false
  | _ :: rest => featFindDotRev rest

/-! ## `clear_dupes.get_file_score` -/

/-- `get_file_score` from `src/src/clear_dupes.py`: base name after the
last backslash with surrounding quotes stripped, extension lowered; start
from 100, subtract at most one filename penalty (checked in the source's
`if`/`elif` order), then add the extension bonus. -/
def get_file_score (path : String) : Int :=
  let base := stripQuotes (afterLastBackslash path.data)
  let ext := lowerStr (splitextExt base)
  let score : Int := 100
  let score :=
    if windowsCopyMatch base then score - 20
    else if trackNumMatch base then score - 10
    else if featMatch base then score - 5
    else score
  if ext = ".flac".data then score + 10
  else if ext = ".m4a".data then score + 5
  else if ext = ".mp3".data then score + 1
  else score

/-- The filename penalty exactly as the specification words it: at most
one of the three pattern penalties, chosen in priority order. -/
def filenamePenalty (path : String) : Int :=
  let base := stripQuotes (afterLastBackslash path.data)
  if windowsCopyMatch base then 20
  else if trackNumMatch base then 10
  else if featMatch base then 5
  else 0

/-- The extension bonus, independent of the penalty. -/
def formatBonus (path : String) : Int :=
  let ext := lowerStr (splitextExt (stripQuotes (afterLastBackslash path.data)))
  if ext = ".flac".data then 10
  else if ext = ".m4a".data then 5
  else if ext = ".mp3".data then 1
  else 0

/-! Stable descending sort by score, mirroring
`candidates.sort(key=lambda x: x[0], reverse=True)` (Python's sort is
stable; insertion via `foldr` with `≤` on the incoming element keeps
earlier candidates first among equal scores). -/

def insertDescBy (key : α → Int) (x : α) : List α → List α
  | [] => [x]
  | y :: ys => if key y ≤ key x then x :: y :: ys else y :: insertDescBy key x ys

def sortDescBy (key : α → Int) : List α → List α
  | [] => []
  | x :: xs => insertDescBy key x (sortDescBy key xs)

/-! ## Path normalization

`os.path.normpath(p).replace("\\", "/")` as used by
`add_or_update_track`, `update_track_local_path` and `log_duplicate`.
The posix flavour of `normpath` is embedded (collapse separators and
`.` components, resolve `..` against preceding components, keep a double
leading slash); the subsequent `replace` turns any remaining backslashes
into forward slashes. -/

def splitOnChar (sep : Char) (cs : List Char) : List (List Char) :=
  go cs [] where
  go : List Char → List Char → List (List Char)
    | [], acc => [acc.reverse]
    | c :: rest, acc =>
      if c = sep then acc.reverse :: go rest [] else go rest (c :: acc)

def joinWithChar (sep : Char) : List (List Char) → List Char
  | [] => []
  | [x] => x
  | x :: xs => x ++ sep :: joinWithChar sep xs

/-- The component loop of `posixpath.normpath`. -/
def normComps (initialSlashes : Nat) : List (List Char) → List (List Char) → List (List Char)
  | acc, [] => acc
  | acc, comp :: rest =>
    if comp = [] || comp = ['.'] then normComps initialSlashes acc rest
    else if comp ≠ ['.', '.'] || (initialSlashes = 0 && acc.isEmpty) ||
        (!acc.isEmpty && acc.getLast? = some ['.', '.']) then
      normComps initialSlashes (acc ++ [comp]) rest
    else if !acc.isEmpty then normComps initialSlashes acc.dropLast rest
    else normComps initialSlashes acc rest

def normPath (s : String) : String :=
  if s = "" then "." else
  let cs := s.data
  let initialSlashes : Nat :=
    if cs.take 1 = ['/'] then
      if cs.take 2 = ['/', '/'] && cs.take 3 ≠ ['/', '/', '/'] then 2 else 1
    else 0
  let comps := splitOnChar '/' cs
  let newComps := normComps initialSlashes [] comps
  let path := List.replicate initialSlashes '/' ++ joinWithChar '/' newComps
  if path = [] then "." else ⟨path⟩

/-- `os.path.normpath(p).replace("\\", "/")`. -/
def pyNormalizePath (s : String) : String :=
  ⟨(normPath s).data.map (fun c => if c = '\\' then '/' else c)⟩

/-! ## The catalog store (`src/src/db_manager.py`)

Each SQLite table becomes a list of rows; each mutating
`DatabaseManager` method becomes a function on the `DB` record.  The
`last_attempt` timestamp column and the `spotify_url` text column are
carried verbatim where needed and otherwise ignored, as no claim concerns
them; error handling that leaves the database untouched (a constraint
violation aborts the single statement before any change) is modelled as
the identity on the state. -/

structure Track where
  mbid : String
  title : String
  artist : String
  album : Option String := none
  isrc : Option String := none
  local_path : Option String := none
  ipod_path : Option String := none
  synced_to_ipod : Bool := false
  release_mbid : Option String := none
  track_number : Int := 0
  disc_number : Int := 1
deriving Repr, DecidableEq

structure AlbumRow where
  release_mbid : String
  album_title : String
  total_tracks : Int
deriving Repr, DecidableEq

structure PlaylistRow where
  playlist_id : String
  name : String
  spotify_url : String
deriving Repr, DecidableEq

structure LinkRow where
  playlist_id : String
  track_mbid : String
  track_order : Int
deriving Repr, DecidableEq

/-- A `download_queue` row; `id` is the AUTOINCREMENT key. -/
structure QueueRow where
  id : Nat
  search_query : String
  playlist_id : String
  mbid_guess : String
  status : String
deriving Repr, DecidableEq

structure DownloadItem where
  search_query : String
  playlist_id : String
  mbid_guess : String
  status : String := "pending"
deriving Repr, DecidableEq

structure DB where
  tracks : List Track := []
  albums : List AlbumRow := []
  playlists : List PlaylistRow := []
  playlist_tracks : List LinkRow := []
  download_queue : List QueueRow := []
  duplicates : List (String × String) := []
  next_queue_id : Nat := 1
deriving Repr, DecidableEq

def validStatus (s : String) : Bool :=
  s = "pending" || s = "failed" || s = "success"

/-- `add_or_update_track`: normalize the local path (only when truthy, as
in the Python `if track.local_path:` guard), then `INSERT OR REPLACE`:
every row conflicting on the `mbid` primary key or on the `local_path`
UNIQUE constraint (NULLs never conflict) is deleted and the new row
inserted; with `PRAGMA foreign_keys = ON`, the implicit deletes cascade
into `playlist_tracks`. -/
def add_or_update_track (db : DB) (track : Track) : DB :=
  let track :=
    match track.local_path with
    | some p => if p ≠ "" then { track with local_path := some (pyNormalizePath p) } else track
    | none => track
  let conflicts : Track → Bool := fun r =>
    r.mbid = track.mbid ||
      (track.local_path.isSome && r.local_path = track.local_path)
  let deletedMbids := (db.tracks.filter conflicts).map (·.mbid)
  { db with
      tracks := db.tracks.filter (fun r => !conflicts r) ++ [track]
      playlist_tracks :=
        db.playlist_tracks.filter (fun l => !deletedMbids.contains l.track_mbid) }

def get_track_by_mbid (db : DB) (mbid : String) : Option Track :=
  db.tracks.find? (fun t => t.mbid = mbid)

/-- `mark_track_synced`: `UPDATE tracks SET synced_to_ipod = 1,
ipod_path = ? WHERE mbid = ?`. -/
def mark_track_synced (db : DB) (mbid : String) (ipod_path : String) : DB :=
  { db with tracks := db.tracks.map (fun t =>
      if t.mbid = mbid then { t with synced_to_ipod := true, ipod_path := some ipod_path } else t) }

/-- `update_track_local_path`: normalize (when truthy), then `UPDATE
tracks SET local_path = ? WHERE mbid = ?`.  Setting the path of some row
to a value already held by a different row violates the UNIQUE
constraint: the statement raises and changes nothing (`none`). -/
def update_track_local_path (db : DB) (mbid path : String) : Option DB :=
  let path := if path ≠ "" then pyNormalizePath path else path
  if db.tracks.any (fun r => r.mbid ≠ mbid && r.local_path = some path) &&
      db.tracks.any (fun r => r.mbid = mbid) then
    none
  else
    some { db with tracks := db.tracks.map (fun t =>
      if t.mbid = mbid then { t with local_path := some path } else t) }

/-- `update_album_metadata`: upsert keyed by `release_mbid`; on conflict
`total_tracks := MAX(total_tracks, excluded.total_tracks)` and the title
takes the new value. -/
def update_album_metadata (db : DB) (release_mbid album_title : String) (total_tracks : Int) : DB :=
  if db.albums.any (fun a => a.release_mbid = release_mbid) then
    { db with albums := db.albums.map (fun a =>
        if a.release_mbid = release_mbid then
          { a with total_tracks := max a.total_tracks total_tracks, album_title := album_title }
        else a) }
  else
    { db with albums := db.albums ++ [⟨release_mbid, album_title, total_tracks⟩] }

/-- `queue_download` (the `src/src/db_manager.py` version): `INSERT OR
IGNORE INTO download_queue ...`.  The table of that file declares no
UNIQUE constraint besides the AUTOINCREMENT primary key, so the insert
can only be ignored by the CHECK on `status`; otherwise a fresh row is
always appended. -/
def queue_download (db : DB) (item : DownloadItem) : DB :=
  if validStatus item.status then
    { db with
        download_queue := db.download_queue ++
          [⟨db.next_queue_id, item.search_query, item.playlist_id, item.mbid_guess, item.status⟩]
        next_queue_id := db.next_queue_id + 1 }
  else db

/-- `update_download_status` (timestamp column ignored); an invalid
status violates the CHECK and changes nothing. -/
def update_download_status (db : DB) (item_id : Nat) (status : String) : DB :=
  if validStatus status then
    { db with download_queue := db.download_queue.map (fun r =>
        if r.id = item_id then { r with status := status } else r) }
  else db

def remove_from_queue (db : DB) (item_id : Nat) : DB :=
  { db with download_queue := db.download_queue.filter (fun r => r.id ≠ item_id) }

/-- `add_or_update_playlist`: `INSERT OR REPLACE` keyed by
`playlist_id`; the implicit delete of a replaced row cascades into
`playlist_tracks`. -/
def add_or_update_playlist (db : DB) (p : PlaylistRow) : DB :=
  let replaced := db.playlists.any (fun q => q.playlist_id = p.playlist_id)
  { db with
      playlists := db.playlists.filter (fun q => q.playlist_id ≠ p.playlist_id) ++ [p]
      playlist_tracks :=
        if replaced then
          db.playlist_tracks.filter (fun l => l.playlist_id ≠ p.playlist_id)
        else db.playlist_tracks }

/-- `link_track_to_playlist`: `INSERT OR IGNORE` on the composite
primary key; a foreign-key violation (missing playlist or track) is not
covered by IGNORE, raises, and changes nothing. -/
def link_track_to_playlist (db : DB) (playlist_id track_mbid : String) (ord : Int) : DB :=
  if db.playlists.any (fun q => q.playlist_id = playlist_id) &&
      db.tracks.any (fun t => t.mbid = track_mbid) then
    if db.playlist_tracks.any (fun l =>
        l.playlist_id = playlist_id && l.track_mbid = track_mbid) then db
    else { db with playlist_tracks := db.playlist_tracks ++ [⟨playlist_id, track_mbid, ord⟩] }
  else db

/-- `log_duplicate`: normalize (when truthy), `INSERT OR IGNORE` with
`UNIQUE(mbid, file_path)`. -/
def log_duplicate (db : DB) (mbid file_path : String) : DB :=
  let file_path := if file_path ≠ "" then pyNormalizePath file_path else file_path
  if (mbid, file_path) ∈ db.duplicates then db
  else { db with duplicates := db.duplicates ++ [(mbid, file_path)] }

def get_all_duplicates_for (db : DB) (mbid : String) : List String :=
  (db.duplicates.filter (fun e => e.1 = mbid)).map (·.2)

def clear_duplicate (db : DB) (mbid : String) : DB :=
  { db with duplicates := db.duplicates.filter (fun e => e.1 ≠ mbid) }

/-- `merge_albums`: falsy guard on either argument, target row required;
tracks of the source release move to the target release and take its
title; the source album row is deleted. -/
def merge_albums (db : DB) (source_mbid target_mbid : String) : DB :=
  if source_mbid = "" || target_mbid = "" then db
  else
    match db.albums.find? (fun a => a.release_mbid = target_mbid) with
    | none => db
    | some target =>
      { db with
          tracks := db.tracks.map (fun t =>
            if t.release_mbid = some source_mbid then
              { t with release_mbid := some target_mbid, album := some target.album_title }
            else t)
          albums := db.albums.filter (fun a => a.release_mbid ≠ source_mbid) }

/-- `get_mbid_to_track_path_map`: the `(mbid, local_path)` pairs with
both fields truthy (the Python dict comprehension filters on
`row[0] and row[1]`).  Later pairs win in a Python dict; lookups below
take the last matching pair. -/
def mbid_to_path_pairs (db : DB) : List (String × String) :=
  (db.tracks.filterMap (fun t =>
      match t.local_path with
      | some p => if t.mbid ≠ "" && p ≠ "" then some (t.mbid, p) else none
      | none => none))

def lastLookup (pairs : List (String × String)) (k : String) : Option String :=
  (pairs.reverse.find? (fun e => e.1 = k)).map (·.2)

/-! ## `get_incomplete_albums`

The SQL query of `src/src/db_manager.py` joins `tracks` with `albums`
on `release_mbid`, keeps rows with a non-null `local_path`, groups by
`t.release_mbid`, counts `COUNT(DISTINCT t.track_number)` (the disc
number does not enter the count), keeps groups with
`local_count < a.total_tracks` and orders by `t.artist, a.album_title`.
`t.artist` is a bare column under GROUP BY, which SQLite fills from an
unspecified row of the group; the embedding takes the first joined row
in table order.  String ordering is the BINARY collation, which agrees
with the code-point order used here. -/

/-- Keep the first occurrence of each element (membership-accumulator
form, structurally recursive). -/
def dedupFirst [DecidableEq α] (seen : List α) : List α → List α
  | [] => []
  | x :: xs => if x ∈ seen then dedupFirst seen xs else x :: dedupFirst (x :: seen) xs

structure IncompleteRec where
  artist : String
  album : String
  mbid : String
  have_count : Int
  total : Int
  missing : Int
deriving Repr, DecidableEq

/-- The joined, locally-present rows of one release. -/
def localRowsFor (db : DB) (r : String) : List Track :=
  db.tracks.filter (fun t => t.release_mbid = some r && t.local_path.isSome)

/-- `COUNT(DISTINCT t.track_number)` over the group. -/
def distinctTrackNumberCount (db : DB) (r : String) : Int :=
  (dedupFirst [] ((localRowsFor db r).map (·.track_number))).length

/-- One group of the query: requires the album row, at least one joined
local row (an empty group produces no output row in SQL), and the HAVING
filter. -/
def incompleteRecFor (db : DB) (r : String) : Option IncompleteRec :=
  match db.albums.find? (fun a => a.release_mbid = r) with
  | none => none
  | some a =>
    match (localRowsFor db r).head? with
    | none => none
    | some t0 =>
      let haveC := distinctTrackNumberCount db r
      if haveC < a.total_tracks then
        some ⟨t0.artist, a.album_title, r, haveC, a.total_tracks, a.total_tracks - haveC⟩
      else none

/-- `ORDER BY t.artist, a.album_title` as a Boolean preorder. -/
def incRecLe (x y : IncompleteRec) : Prop :=
  x.artist < y.artist ∨ (x.artist = y.artist ∧ x.album ≤ y.album)

instance : DecidableRel incRecLe := fun _ _ => by unfold incRecLe; infer_instance

/-- The grouping keys, in first-appearance order. -/
def releaseKeys (db : DB) : List String :=
  dedupFirst [] ((db.tracks.filter (fun t => t.local_path.isSome)).filterMap (·.release_mbid))

def get_incomplete_albums (db : DB) : List IncompleteRec :=
  List.insertionSort (fun x y => incRecLe x y) ((releaseKeys db).filterMap (incompleteRecFor db))

/-- The claim's own description of a group (`spec`, not source): `have`
is the number of distinct `(disc, track)` pairs with a non-null
`local_path`, and every release of the albums table with `have < total`
is reported.  The representative artist, which the claim leaves open, is
chosen as for the source query. -/
def incompleteRecSpec (db : DB) (a : AlbumRow) : Option IncompleteRec :=
  let rows := localRowsFor db a.release_mbid
  let haveC : Int :=
    (dedupFirst [] (rows.map (fun t => (t.disc_number, t.track_number)))).length
  if haveC < a.total_tracks then
    some ⟨((rows.head?).map (·.artist)).getD "", a.album_title, a.release_mbid,
          haveC, a.total_tracks, a.total_tracks - haveC⟩
  else none

/-- `get_incomplete_albums` as the claim words it. -/
def incomplete_albums_spec (db : DB) : List IncompleteRec :=
  List.insertionSort (fun x y => incRecLe x y) (db.albums.filterMap (incompleteRecSpec db))

/-! ## `clear_dupes.find_and_resolve_duplicates`, one group

The per-group body of the loop: score the candidates, sort them stably
by descending score (`candidates.sort(key=lambda x: x[0], reverse=True)`),
skip groups of fewer than two candidates, report a tie of the top two
scores, otherwise sanity-check the embedded identity of the winner
(`get_mbid_from_tags`, here the parameter `tagRead`), look the track up,
commit `update_track_local_path` + `clear_duplicate` and emit the losing
paths as deletion candidates.  A raised exception inside the `try` block
(the UNIQUE violation of the path update) is caught and counted as an
error, leaving the catalog untouched. -/

def pyStripQuotes (s : String) : String := ⟨stripQuotes s.data⟩

structure GroupOutcome where
  committed : Bool := false
  unresolvedTie : Bool := false
  sanityFailure : Bool := false
  errored : Bool := false
  losers : List String := []
deriving Repr, DecidableEq

def scoreCandidates (paths : List String) : List (Int × String) :=
  paths.map (fun p => let clean := pyStripQuotes p; (get_file_score clean, clean))

def resolveGroup (tagRead : String → Option String) (db : DB)
    (mbid : String) (paths : List String) : DB × GroupOutcome :=
  let sorted := List.insertionSort (fun x y : Int × String => y.1 ≤ x.1) (scoreCandidates paths)
  match sorted with
  | best :: second :: _ =>
    if best.1 = second.1 then (db, { unresolvedTie := true })
    else if tagRead best.2 = some mbid then
      match get_track_by_mbid db mbid with
      | some _ =>
        match update_track_local_path db mbid best.2 with
        | some db1 =>
          (clear_duplicate db1 mbid,
           { committed := true, losers := (sorted.tail).map (·.2) })
        | none => (db, { errored := true })
      | none => (db, { errored := true })
    else (db, { sanityFailure := true })
  | _ => (db, {})

/-- The whole pass: `get_all_duplicates` is fetched once up front, then
the group resolution is folded over the map in its insertion order,
accumulating deletion candidates. -/
def find_and_resolve_duplicates (tagRead : String → Option String) (db : DB) :
    DB × List String :=
  (dedupFirst [] (db.duplicates.map (·.1))).foldl
    (fun acc m =>
      let r := resolveGroup tagRead acc.1 m (get_all_duplicates_for db m)
      (r.1, acc.2 ++ r.2.losers))
    (db, [])

/-! ## `album_completer.queue_missing_tracks_for_album`

`get_missing_tracks_for_album` reads a representative row of the release
(`SELECT artist, title FROM tracks WHERE release_mbid = ? LIMIT 1`; note
that the source binds the track title column as the album title), builds
the local `(disc, track)` set from rows with a non-null `local_path`,
obtains the authoritative `{(disc, track): title}` map from the external
metadata collaborator (a parameter here) and lists the official entries
missing locally, sorted by `(disc, track)`.

The enqueue target `db.add_to_queue` and its `downloads` table exist
nowhere in this repository (only callers in `album_completer.py` and
`web_server.py`); both are modelled from the specification below. -/

/-- Modelled from the spec: a download-queue item as `add_to_queue` is
called (search query, identity guess, artist, title); missing from the
repository, which only contains its callers. -/
structure AuditQueueItem where
  search_query : String
  track_mbid : String
  artist : String
  title : String
deriving Repr, DecidableEq

/-- Modelled from the spec: `db.add_to_queue(...)` appends one item to
the download queue. -/
def add_to_queue (q : List AuditQueueItem)
    (search_query track_mbid artist title : String) : List AuditQueueItem :=
  q ++ [⟨search_query, track_mbid, artist, title⟩]

/-- Modelled from the spec: the probe
`SELECT id FROM downloads WHERE search_query = ?` — an item with exactly
this query text is already queued. -/
def queuedByQuery (q : List AuditQueueItem) (query : String) : Bool :=
  q.any (fun i => i.search_query = query)

structure MissingItem where
  disc : Int
  track : Int
  title : String
deriving Repr, DecidableEq

/-- `sorted(official_tracks.items(), key=lambda x: (x[0][0], x[0][1]))`. -/
def sortOfficial (official : List ((Int × Int) × String)) : List ((Int × Int) × String) :=
  List.insertionSort
    (fun x y => x.1.1 < y.1.1 ∨ (x.1.1 = y.1.1 ∧ x.1.2 ≤ y.1.2)) official

def localDiscTrackPairs (db : DB) (release : String) : List (Int × Int) :=
  (db.tracks.filter (fun t => t.release_mbid = some release && t.local_path.isSome)).map
    (fun t => (t.disc_number, t.track_number))

def missing_tracks_for (db : DB) (release : String)
    (official : List ((Int × Int) × String)) : List MissingItem :=
  (sortOfficial official).filterMap (fun e =>
    if (e.1.1, e.1.2) ∈ localDiscTrackPairs db release then none
    else some ⟨e.1.1, e.1.2, e.2⟩)

def albumModeQuery (artist album : String) : String :=
  "::ALBUM:: " ++ artist ++ " - " ++ album

/-- The threshold `missing_count > 3 or missing_pct > 60` where
`missing_pct = (missing_count / total_tracks) * 100` is a float.  The
embedding uses the exact rational comparison; the float computation
agrees with it on every input: when `missing > 3` the disjunction is
already true, and otherwise `missing ≤ 3` puts the quotient at least
`1/(5*total)` away from `0.6` whenever it differs from it (and exactly
on `3/5` the product rounds to `60.0`, on which `> 60` is false on both
sides), far outside double rounding error. -/
def albumModeCond (missingCount totalCount : Nat) : Bool :=
  missingCount > 3 || missingCount * 100 > 60 * totalCount

/-- `queue_missing_tracks_for_album`: the queue-mutating part, with the
official tracklist supplied by the (external) metadata collaborator and
the modelled `add_to_queue`/`downloads` probe. -/
def queue_missing_tracks_for_album (db : DB) (release : String)
    (official : List ((Int × Int) × String)) (q : List AuditQueueItem) :
    List AuditQueueItem :=
  match db.tracks.find? (fun t => t.release_mbid = some release) with
  | none => q
  | some t0 =>
    if official.isEmpty then q
    else
      let artist_name := t0.artist
      let album_title := t0.title
      let missing := missing_tracks_for db release official
      if missing.length = 0 then q
      else if albumModeCond missing.length official.length then
        let query := albumModeQuery artist_name album_title
        if queuedByQuery q query then q
        else add_to_queue q query "ALBUM_MODE" artist_name ("[Full Album] " ++ album_title)
      else
        missing.foldl (fun acc item =>
          let query := artist_name ++ " - " ++ item.title
          if queuedByQuery acc query then acc
          else add_to_queue acc query "" artist_name item.title) q

/-! ## The synchronization engine (`src/src/sync_ipod.py`)

Filesystems are association lists from paths to files; the device music
tree `devFs` is keyed by paths relative to the device music root (which
is how the reverse pass addresses it via `os.path.relpath`), the local
filesystem `localFs` by full paths.  A file carries its content, its
embedded identity tag (`get_mbid_from_tags`: `none` when missing or
unreadable) and its size.  The conversion collaborator is a parameter:
`convert` gives the produced file, `convOk` whether the invocation
succeeds; a failed invocation is modelled as leaving the filesystem
unchanged (the per-item exception is caught by `_sync_tracks`). -/

structure DeviceFile where
  content : String
  tag : Option String
  size : Nat
deriving Repr, DecidableEq

abbrev Fs := List (String × DeviceFile)

/-- First-match association lookup: the file at path `p`, when present. -/
def fsLookup : Fs → String → Option DeviceFile
  | [], _ => none
  | e :: rest, p => if e.1 = p then some e.2 else fsLookup rest p

def fsWrite (fs : Fs) (p : String) (f : DeviceFile) : Fs :=
  if fs.any (fun e => e.1 = p) then
    fs.map (fun e => if e.1 = p then (p, f) else e)
  else fs ++ [(p, f)]

structure SyncEnv where
  musicRoot : String
  restoreBase : String
  fmt : String
  supportedExts : List String
  convert : DeviceFile → DeviceFile
  convOk : Track → Bool

structure SyncState where
  db : DB
  localFs : Fs
  devFs : Fs
deriving Repr, DecidableEq

/-- `_sanitize_path_component`: `re.sub(r'[\\/*?:"<>|]', "_", name)`
after replacing a falsy name by `"Unknown"`. -/
def sanitizeComponent (name : String) : String :=
  if name = "" then "Unknown"
  else ⟨name.data.map (fun c =>
    if c = '\\' || c = '/' || c = '*' || c = '?' || c = ':' ||
        c = '"' || c = '<' || c = '>' || c = '|' then '_' else c)⟩

/-- `os.path.join(a, b)` for a relative second component. -/
def pjoin (a b : String) : String :=
  if a = "" then b
  else if a.data.getLast? = some '/' then a ++ b
  else a ++ "/" ++ b

/-- The basename of a relative path (the `file` variable of `os.walk`). -/
def basename (p : String) : String :=
  ⟨(p.data.reverse.takeWhile (fun c => c ≠ '/')).reverse⟩

/-- `file.lower().endswith(SUPPORTED_EXTENSIONS)`. -/
def hasSupportedExt (name : String) (exts : List String) : Bool :=
  exts.any (fun e => e.data.isSuffixOf (lowerStr name.data))

/-- Python substring containment (`needle in hay`). -/
def containsSub (needle : List Char) : List Char → Bool
  | [] => needle.isEmpty
  | c :: rest => needle.isPrefixOf (c :: rest) || containsSub needle rest

/-- The destination of a track relative to the device music root:
`SafeArtist/SafeAlbum/SafeTitle.ext`. -/
def outputRel (env : SyncEnv) (track : Track) : String :=
  let safe_artist := if track.artist ≠ "" then sanitizeComponent track.artist else "Unknown Artist"
  let safe_title := if track.title ≠ "" then sanitizeComponent track.title else "Unknown Title"
  let safe_album :=
    match track.album with
    | some a => if a ≠ "" then sanitizeComponent a else "Unknown Album"
    | none => "Unknown Album"
  pjoin (pjoin safe_artist safe_album) (safe_title ++ "." ++ env.fmt)

/-- `_convert_and_copy`, returning the new state and the conversion
invocations (one entry when ffmpeg was run, successful or not). -/
def convert_and_copy (env : SyncEnv) (st : SyncState) (track : Track) :
    SyncState × List Track :=
  match track.local_path with
  | none => (st, [])
  | some lp =>
    match fsLookup st.localFs lp with
    | none => (st, [])
    | some src =>
      let rel := outputRel env track
      let full := pjoin env.musicRoot rel
      let ipodMbid := (fsLookup st.devFs rel).bind (·.tag)
      let skip :=
        match ipodMbid with
        | some m =>
          m ≠ "" && track.mbid ≠ "" &&
            lowerStr (stripWs m.data) = lowerStr (stripWs track.mbid.data)
        | none => false
      if skip then
        ({ st with db := mark_track_synced st.db track.mbid full }, [])
      else if env.convOk track then
        ({ st with
            devFs := fsWrite st.devFs rel (env.convert src)
            db := mark_track_synced st.db track.mbid full }, [track])
      else (st, [track])

inductive SyncMode where
  | playlistsOnly
  | fullLibrary
  | selective
deriving Repr, DecidableEq

/-- `get_playlist_tracks`: join the link rows of the playlist with the
tracks, ordered by `track_order`. -/
def get_playlist_tracks (db : DB) (pid : String) : List Track :=
  (List.insertionSort (fun x y : LinkRow => x.track_order ≤ y.track_order)
      (db.playlist_tracks.filter (fun l => l.playlist_id = pid))).filterMap
    (fun l => get_track_by_mbid db l.track_mbid)

/-- Python-dict insert: replace in place on an existing key, else
append. -/
def dictInsert (k : String) (v : Track) : List (String × Track) → List (String × Track)
  | [] => [(k, v)]
  | (k', v') :: rest =>
    if k' = k then (k, v) :: rest else (k', v') :: dictInsert k v rest

/-- `_get_tracks_to_sync`. -/
def tracks_to_sync (db : DB) (mode : SyncMode) (artist_filter : Option String) : List Track :=
  match mode with
  | .playlistsOnly =>
    (db.playlists.foldl (fun acc p =>
        (get_playlist_tracks db p.playlist_id).foldl (fun acc t =>
          if t.local_path.isSome && !t.synced_to_ipod then dictInsert t.mbid t acc else acc)
          acc) []).map (·.2)
  | .fullLibrary =>
    (db.tracks.filter (fun t => t.local_path.isSome)).filter (fun t => !t.synced_to_ipod)
  | .selective =>
    let tracks :=
      (db.tracks.filter (fun t => t.local_path.isSome)).filter (fun t => !t.synced_to_ipod)
    match artist_filter with
    | some f =>
      if f ≠ "" then
        tracks.filter (fun t => containsSub (lowerStr f.data) (lowerStr t.artist.data))
      else tracks
    | none => tracks

/-- `_sync_tracks`: the forward pass (the interactive large-batch gate
is modelled as confirmed), accumulating conversion invocations. -/
def sync_tracks (env : SyncEnv) (st : SyncState) (mode : SyncMode)
    (artist_filter : Option String) : SyncState × List Track :=
  (tracks_to_sync st.db mode artist_filter).foldl
    (fun acc t =>
      let r := convert_and_copy env acc.1 t
      (r.1, acc.2 ++ r.2))
    (st, [])

/-- `reconcile_ipod_to_db`: walk the device tree, and for every
supported, large-enough file whose embedded identity is truthy and known
to the catalog map, `mark_track_synced` — no filesystem effect. -/
def reconcile_ipod_to_db (env : SyncEnv) (st : SyncState) : SyncState :=
  let pairs := mbid_to_path_pairs st.db
  if pairs.isEmpty then st
  else
    { st with db := st.devFs.foldl (fun db e =>
        if !hasSupportedExt (basename e.1) env.supportedExts then db
        else if e.2.size < 1024 then db
        else
          match e.2.tag with
          | some m =>
            if m ≠ "" && pairs.any (fun pr => pr.1 = m) then
              mark_track_synced db m (pjoin env.musicRoot e.1)
            else db
          | none => db) st.db }

/-- The import decision of `_import_missing_tracks_from_ipod` for one
device file, against the current local filesystem. -/
def shouldImport (pairs : List (String × String)) (lfs : Fs) (f : DeviceFile) : Bool :=
  match f.tag with
  | some m =>
    if m ≠ "" && pairs.any (fun pr => pr.1 = m) then
      match lastLookup pairs m with
      | some lp => (fsLookup lfs lp).isNone
      | none => true
    else true
  | none => true

/-- The loop body of `_import_missing_tracks_from_ipod` for one device
file: skip unsupported names; copy an importable file to the recovery
destination mirroring its device-relative path, unless that destination
already exists. -/
def importStep (pairs : List (String × String)) (rb : String) (exts : List String)
    (lfs : Fs) (e : String × DeviceFile) : Fs :=
  if !hasSupportedExt (basename e.1) exts then lfs
  else if shouldImport pairs lfs e.2 then
    if (fsLookup lfs (pjoin rb e.1)).isSome then lfs
    else fsWrite lfs (pjoin rb e.1) e.2
  else lfs

/-- `_import_missing_tracks_from_ipod`: the reverse pass.  Device files
are only read. -/
def import_missing_tracks_from_ipod (env : SyncEnv) (st : SyncState) : SyncState :=
  { st with
      localFs := st.devFs.foldl
        (importStep (mbid_to_path_pairs st.db) env.restoreBase env.supportedExts)
        st.localFs }

/-- The three passes the no-deletion claim ranges over. -/
inductive Pass where
  | forward (mode : SyncMode) (artist_filter : Option String)
  | reverseImport
  | deviceMatch

def runPass (env : SyncEnv) (st : SyncState) : Pass → SyncState
  | .forward mode af => (sync_tracks env st mode af).1
  | .reverseImport => import_missing_tracks_from_ipod env st
  | .deviceMatch => reconcile_ipod_to_db env st

def runPasses (env : SyncEnv) (passes : List Pass) (st : SyncState) : SyncState :=
  passes.foldl (runPass env) st

/-! ## Concrete sync scenario: a device file at a candidate destination
with a mismatched embedded identity -/

def c1old : DeviceFile := { content := "old device audio", tag := some "x", size := 4096 }

def c1new : DeviceFile := { content := "converted audio", tag := some "m", size := 2048 }

def c1src : DeviceFile := { content := "library audio", tag := some "m", size := 8192 }

def c1env : SyncEnv :=
  { musicRoot := "/ipod/Music", restoreBase := "/restore", fmt := "flac",
    supportedExts := [".flac", ".mp3", ".m4a", ".ogg", ".opus", ".wav"],
    convert := fun _ => c1new, convOk := fun _ => true }

def c1st : SyncState :=
  { db := { tracks := [
      { mbid := "m", title := "T", artist := "A", album := some "B",
        local_path := some "/lib/t.flac" }] },
    localFs := [("/lib/t.flac", c1src)],
    devFs := [("A/B/T.flac", c1old)] }

/-- Every catalog row under this identity is marked synced. -/
def syncedIn (db : DB) (m : String) : Prop :=
  ∀ r ∈ db.tracks, r.mbid = m → r.synced_to_ipod = true

instance (db : DB) (m : String) : Decidable (syncedIn db m) := by
  unfold syncedIn; infer_instance

/-- How a forward pass may evolve the catalog: playlists and links are
untouched, unsynced rows (and their point lookups) are exactly the
original ones, and the synced flag only ever turns on. -/
def TracksEvolved (db0 db1 : DB) : Prop :=
  db1.playlists = db0.playlists ∧
  db1.playlist_tracks = db0.playlist_tracks ∧
  (∀ m t, get_track_by_mbid db1 m = some t → t.synced_to_ipod = false →
    get_track_by_mbid db0 m = some t) ∧
  (∀ t ∈ db1.tracks, t.synced_to_ipod = false → t ∈ db0.tracks) ∧
  (∀ m, syncedIn db0 m → syncedIn db1 m)

/-! ## Concrete reverse-reconciliation scenario: the recovery
destination already exists -/

def c7dev : DeviceFile := { content := "device audio", tag := none, size := 4096 }

def c7old : DeviceFile := { content := "stale restore", tag := none, size := 10 }

def c7st : SyncState :=
  { db := {}, localFs := [("/restore/x.mp3", c7old)], devFs := [("x.mp3", c7dev)] }

/-! ## The universe of mutating catalog operations (for the
`synced → device path` invariant) -/

inductive CatalogOp where
  | upsertTrack (t : Track)
  | markSynced (mbid ipod_path : String)
  | updateLocalPath (mbid path : String)
  | updateAlbumMeta (release_mbid album_title : String) (total_tracks : Int)
  | queueDownloadOp (item : DownloadItem)
  | updateStatusOp (item_id : Nat) (status : String)
  | removeFromQueueOp (item_id : Nat)
  | upsertPlaylist (p : PlaylistRow)
  | linkTrackOp (playlist_id track_mbid : String) (ord : Int)
  | logDuplicateOp (mbid file_path : String)
  | clearDuplicateOp (mbid : String)
  | mergeAlbumsOp (source_mbid target_mbid : String)

def runCatalogOp (db : DB) : CatalogOp → DB
  | .upsertTrack t => add_or_update_track db t
  | .markSynced m p => mark_track_synced db m p
  | .updateLocalPath m p => (update_track_local_path db m p).getD db
  | .updateAlbumMeta r a n => update_album_metadata db r a n
  | .queueDownloadOp item => queue_download db item
  | .updateStatusOp i s => update_download_status db i s
  | .removeFromQueueOp i => remove_from_queue db i
  | .upsertPlaylist p => add_or_update_playlist db p
  | .linkTrackOp pid m o => link_track_to_playlist db pid m o
  | .logDuplicateOp m p => log_duplicate db m p
  | .clearDuplicateOp m => clear_duplicate db m
  | .mergeAlbumsOp s t => merge_albums db s t

/-- One track satisfies the data-model invariant. -/
def trackOK (t : Track) : Prop :=
  t.synced_to_ipod = true → t.ipod_path ≠ none

instance : DecidablePred trackOK := fun _ => by unfold trackOK; infer_instance

/-- `synced == true` implies `device_path != null`, over the catalog. -/
def syncedImpliesDevice (db : DB) : Prop :=
  ∀ t ∈ db.tracks, trackOK t

instance : DecidablePred syncedImpliesDevice := fun _ => by
  unfold syncedImpliesDevice; infer_instance

/-- The precondition an operation's own arguments must satisfy:
`add_or_update_track` accepts an arbitrary track value and writes its
`synced_to_ipod`/`ipod_path` fields verbatim, so the inserted value must
itself satisfy the invariant; every other operation needs nothing. -/
def opArgOK : CatalogOp → Prop
  | .upsertTrack t => trackOK t
  | _ => True

/-- The violating upsert argument: synced but without a device path. -/
def badSyncedTrack : Track :=
  { mbid := "m", title := "T", artist := "A", synced_to_ipod := true }

/-- C8 failing input: one normal queue item enqueued twice. -/
def c8item : DownloadItem :=
  { search_query := "Artist - Song", playlist_id := "pl1", mbid_guess := "guess-1" }

/-- C10 witness catalog: one track, under a different identity. -/
def c10db : DB :=
  { tracks := [{ mbid := "known-id", title := "T", artist := "A" }] }

/-- The queue item the per-track branch of the auditor produces for one
missing track. -/
def perTrackItem (artist : String) (item : MissingItem) : AuditQueueItem :=
  ⟨artist ++ " - " ++ item.title, "", artist, item.title⟩

/-- The single queue item of the whole-album branch. -/
def albumItem (artist album : String) : AuditQueueItem :=
  ⟨albumModeQuery artist album, "ALBUM_MODE", artist, "[Full Album] " ++ album⟩

/-- A locally-present catalog row of the worked-example release. -/
def c5track (n : Nat) : Track :=
  { mbid := "m" ++ toString n, title := "Alb", artist := "Art",
    local_path := some ("/l/" ++ toString n), release_mbid := some "r",
    track_number := (n : Int), disc_number := 1 }

/-- Worked example, 10-track official list `S1 … S10` on disc 1. -/
def c5official : List ((Int × Int) × String) :=
  (List.range 10).map (fun k => (((1 : Int), ((k + 1 : Nat) : Int)), "S" ++ toString (k + 1)))

/-- Worked example A: have = 6 of 10. -/
def c5dbA : DB := { tracks := (List.range 6).map (fun k => c5track (k + 1)) }

/-- Worked example B: have = 8 of 10. -/
def c5dbB : DB := { tracks := (List.range 8).map (fun k => c5track (k + 1)) }

/-- A committing duplicate group: one track, two candidate paths. -/
def c3db : DB :=
  { tracks := [
      { mbid := "m", title := "T", artist := "A", local_path := some "/old/path.mp3" }],
    duplicates := [("m", "/a/x.flac"), ("m", "/b/y.mp3")] }

/-- `c3db` after the winning path update. -/
def c3db1 : DB :=
  { tracks := [
      { mbid := "m", title := "T", artist := "A", local_path := some "/a/x.flac" }],
    duplicates := [("m", "/a/x.flac"), ("m", "/b/y.mp3")] }

/-- Remove the first occurrence of a scored candidate (the losing paths
are the group minus one copy of the winner). -/
def removeFirstPair (x : Int × String) : List (Int × String) → List (Int × String)
  | [] => []
  | y :: ys => if y = x then ys else y :: removeFirstPair x ys

/-- A two-disc release, complete as a set of `(disc, track)` pairs but
with only one distinct `track_number` value. -/
def c4db : DB :=
  { tracks := [
      { mbid := "t1", title := "A1", artist := "Z", release_mbid := some "r",
        local_path := some "/a1", disc_number := 1, track_number := 1 },
      { mbid := "t2", title := "B1", artist := "Z", release_mbid := some "r",
        local_path := some "/a2", disc_number := 2, track_number := 1 }],
    albums := [{ release_mbid := "r", album_title := "Alb", total_tracks := 2 }] }

end DAP

namespace DAP

/-- C2 sanity: the three worked-example scores. -/
example : get_file_score "01 - Song.flac" = 100 := by decide

example : get_file_score "Song (1).flac" = 90 := by decide

example : get_file_score "Song.mp3" = 101 := by decide

example : pyNormalizePath "/music/a/../b/x.flac" = "/music/b/x.flac" := by decide

/-- C2: every path's duplicate score is 100 minus exactly one filename
penalty (numbered-copy −20, else track-number prefix −10, else feat
suffix −5, else 0) plus the independent format bonus (flac +10, m4a +5,
mp3 +1, else 0); the worked examples score 100, 90 and 101, and the
stable descending sort resolves `"Song.mp3"` as the winner. -/
theorem file_score_penalty_bonus_decomposition :
    (∀ path : String,
        get_file_score path = 100 - filenamePenalty path + formatBonus path) ∧
    get_file_score "01 - Song.flac" = 100 ∧
    get_file_score "Song (1).flac" = 90 ∧
    get_file_score "Song.mp3" = 101 ∧
    (List.insertionSort (fun x y : Int × String => y.1 ≤ x.1)
        (scoreCandidates ["01 - Song.flac", "Song (1).flac", "Song.mp3"])).head? =
      some (101, "Song.mp3") := by
  refine ⟨?_, by decide, by decide, by decide, by decide⟩
  intro path
  unfold get_file_score filenamePenalty formatBonus
  dsimp only
  split_ifs <;> ring

/-- C8 (code bug): with the `download_queue` schema of
`src/src/db_manager.py` — no UNIQUE key on `(mbid_guess, playlist_id)` —
`INSERT OR IGNORE` never ignores, so enqueueing the same normal item
twice leaves two rows with the same identity guess and playlist. -/
theorem queue_download_duplicate_rows :
    ((queue_download (queue_download {} c8item) c8item).download_queue.map
        (fun r => (r.mbid_guess, r.playlist_id))) =
      [("guess-1", "pl1"), ("guess-1", "pl1")] := by decide

/-- C9 (amended): every mutating catalog operation preserves the
`synced → device path` invariant provided its own argument satisfies it;
only `add_or_update_track` carries such a proviso (it writes the given
track verbatim), `mark_track_synced` always stores the given, non-null
device path. -/
theorem catalog_ops_preserve_synced_invariant (op : CatalogOp) (db : DB)
    (hdb : syncedImpliesDevice db) (harg : opArgOK op) :
    syncedImpliesDevice (runCatalogOp db op) := by
  have mapCase :
      ∀ (f : Track → Track), (∀ t, trackOK t → trackOK (f t)) →
        ∀ t ∈ db.tracks.map f, trackOK t := by
    intro f hf t ht
    rcases List.mem_map.mp ht with ⟨t0, ht0, rfl⟩
    exact hf t0 (hdb t0 ht0)
  cases op with
  | upsertTrack t =>
    intro r hr
    simp only [runCatalogOp, add_or_update_track, List.mem_append] at hr
    rcases hr with hr | hr
    · exact hdb r (List.mem_of_mem_filter hr)
    · have hr' : r = (match t.local_path with
        | some p => if p ≠ "" then { t with local_path := some (pyNormalizePath p) } else t
        | none => t) := by simpa using hr
      subst hr'
      cases hlp : t.local_path with
      | none => simpa [hlp] using harg
      | some p =>
        by_cases hp : p = "" <;>
          simp only [hlp, hp, if_pos, if_neg, ne_eq, not_false_eq_true, ite_true,
            ite_false, reduceIte] <;>
          simpa using harg
  | markSynced m p =>
    refine mapCase _ ?_
    intro t _ hs
    by_cases h : t.mbid = m <;> simp [h] at hs ⊢
    all_goals simp_all [trackOK]
  | updateLocalPath m p =>
    simp only [runCatalogOp, update_track_local_path]
    split <;> split <;>
      first
        | exact hdb
        | (refine mapCase _ ?_
           intro t htOK hs
           by_cases h : t.mbid = m <;> (simp [h] at hs ⊢; simp_all [trackOK]))
  | updateAlbumMeta r a n =>
    simp only [runCatalogOp, update_album_metadata]
    split <;> exact hdb
  | queueDownloadOp item =>
    simp only [runCatalogOp, queue_download]
    split <;> exact hdb
  | updateStatusOp i s =>
    simp only [runCatalogOp, update_download_status]
    split <;> exact hdb
  | removeFromQueueOp i => exact hdb
  | upsertPlaylist p => exact hdb
  | linkTrackOp pid m o =>
    simp only [runCatalogOp, link_track_to_playlist]
    split <;> [skip; exact hdb]
    split <;> exact hdb
  | logDuplicateOp m p =>
    simp only [runCatalogOp, log_duplicate]
    split <;> split <;> exact hdb
  | clearDuplicateOp m => exact hdb
  | mergeAlbumsOp s t =>
    simp only [runCatalogOp, merge_albums]
    split
    · exact hdb
    · split
      · exact hdb
      · refine mapCase _ ?_
        intro t htOK hs
        by_cases h : t.release_mbid = some s <;> simp [h] at hs ⊢ <;>
          simp_all [trackOK]

/-- C9 witness: a concrete application of the preservation theorem. -/
theorem catalog_ops_preserve_synced_invariant_witness :
    syncedImpliesDevice ({} : DB) ∧ opArgOK (CatalogOp.markSynced "m" "/dev/p") ∧
      syncedImpliesDevice (runCatalogOp {} (CatalogOp.markSynced "m" "/dev/p")) := by
  have h1 : syncedImpliesDevice ({} : DB) := by decide
  have h2 : opArgOK (CatalogOp.markSynced "m" "/dev/p") := trivial
  exact ⟨h1, h2, catalog_ops_preserve_synced_invariant _ _ h1 h2⟩

/-- C9 counterexample: `add_or_update_track` with an arbitrary track
value — synced, no device path — breaks the invariant on an invariant
catalog, so not every operation with arbitrary arguments preserves it. -/
theorem catalog_invariant_not_unconditional :
    syncedImpliesDevice ({} : DB) ∧
      ¬ syncedImpliesDevice (runCatalogOp {} (CatalogOp.upsertTrack badSyncedTrack)) := by
  decide

/-- C10: `mark_track_synced` with an identity matching no catalog row is
an error-free no-op: the UPDATE matches nothing, creates nothing, and
modifies nothing. -/
theorem mark_synced_unknown_mbid_noop (db : DB) (mbid path : String)
    (h : ∀ t ∈ db.tracks, t.mbid ≠ mbid) :
    mark_track_synced db mbid path = db := by
  have hmap : ∀ (l : List Track), (∀ t ∈ l, t.mbid ≠ mbid) →
      l.map (fun t =>
        if t.mbid = mbid then { t with synced_to_ipod := true, ipod_path := some path }
        else t) = l := by
    intro l hl
    induction l with
    | nil => rfl
    | cons a l ih =>
      simp only [List.map_cons, List.cons.injEq]
      refine ⟨?_, ih (fun t ht => hl t (List.mem_cons_of_mem a ht))⟩
      rw [if_neg (hl a (List.mem_cons_self a l))]
  unfold mark_track_synced
  rw [hmap db.tracks h]

/-- The per-track enqueue loop appends exactly one item per missing
track when no query text collides with the queue or with another
missing track. -/
theorem enqueue_missing_foldl (artist : String) :
    ∀ (missing : List MissingItem) (q : List AuditQueueItem),
      (∀ i ∈ missing, queuedByQuery q (artist ++ " - " ++ i.title) = false) →
      ((missing.map (fun i => artist ++ " - " ++ i.title)).Nodup) →
      missing.foldl (fun acc item =>
        let query := artist ++ " - " ++ item.title
        if queuedByQuery acc query then acc
        else add_to_queue acc query "" artist item.title) q =
      q ++ missing.map (perTrackItem artist)
  | [], q, _, _ => by simp
  | item :: rest, q, hfresh, hnodup => by
    have hnd : (artist ++ " - " ++ item.title) ∉
          (rest.map fun i => artist ++ " - " ++ i.title) ∧
        (rest.map fun i => artist ++ " - " ++ i.title).Nodup := by
      rw [List.map_cons, List.nodup_cons] at hnodup
      exact hnodup
    simp only [List.foldl_cons]
    rw [if_neg (by simp [hfresh item (List.mem_cons_self item rest)])]
    have hrest := enqueue_missing_foldl artist rest
      (add_to_queue q (artist ++ " - " ++ item.title) "" artist item.title)
      (fun i hi => by
        have h1 := hfresh i (List.mem_cons_of_mem item hi)
        have h2 : artist ++ " - " ++ i.title ≠ artist ++ " - " ++ item.title := by
          intro hEq
          exact hnd.1 (by
            simpa [hEq] using List.mem_map_of_mem (fun i => artist ++ " - " ++ i.title) hi)
        simp [queuedByQuery, add_to_queue] at h1 ⊢
        exact ⟨h1, fun hEq => (h2 (by simp [hEq])).elim⟩)
      hnd.2
    rw [hrest]
    simp [add_to_queue, perTrackItem]

/-- C5: with the (spec-modelled) enqueue collaborator, a release with at
least one missing track gets exactly one whole-album item (album-mode
query, identity guess "ALBUM_MODE") when missing > 3 or
missing/total > 0.60, and otherwise one per-track item per missing
track; in particular 6 of 10 present gives one whole-album item and 8 of
10 present gives two per-track items. -/
theorem album_audit_queueing :
    (∀ (db : DB) (release : String) (official : List ((Int × Int) × String))
        (q : List AuditQueueItem) (t0 : Track),
        db.tracks.find? (fun t => t.release_mbid = some release) = some t0 →
        official ≠ [] →
        missing_tracks_for db release official ≠ [] →
        queuedByQuery q (albumModeQuery t0.artist t0.title) = false →
        (∀ i ∈ missing_tracks_for db release official,
            queuedByQuery q (t0.artist ++ " - " ++ i.title) = false) →
        ((missing_tracks_for db release official).map
            (fun i => t0.artist ++ " - " ++ i.title)).Nodup →
        queue_missing_tracks_for_album db release official q =
          if albumModeCond (missing_tracks_for db release official).length
              official.length then
            q ++ [albumItem t0.artist t0.title]
          else q ++ (missing_tracks_for db release official).map (perTrackItem t0.artist)) ∧
    queue_missing_tracks_for_album c5dbA "r" c5official [] = [albumItem "Art" "Alb"] ∧
    queue_missing_tracks_for_album c5dbB "r" c5official [] =
      [perTrackItem "Art" ⟨1, 9, "S9"⟩, perTrackItem "Art" ⟨1, 10, "S10"⟩] := by
  refine ⟨?_, by decide, by decide⟩
  intro db release official q t0 h0 hoff hmiss hfA hfT hnodup
  unfold queue_missing_tracks_for_album
  simp only [h0]
  have hoff' : official.isEmpty = false := by
    cases official with
    | nil => exact absurd rfl hoff
    | cons a l => rfl
  simp only [hoff', Bool.false_eq_true, if_false]
  have hlen : ¬ (missing_tracks_for db release official).length = 0 := by
    simpa [List.length_eq_zero] using hmiss
  rw [if_neg hlen]
  by_cases hc : albumModeCond (missing_tracks_for db release official).length
      official.length
  · rw [if_pos hc, if_pos hc, if_neg (by simp [hfA]), add_to_queue]
    rfl
  · rw [if_neg hc, if_neg hc]
    exact enqueue_missing_foldl t0.artist _ q hfT hnodup

/-- C5 witness: worked example A discharges the general statement's
hypotheses. -/
theorem album_audit_queueing_witness :
    (c5dbA.tracks.find? (fun t => t.release_mbid = some "r") = some (c5track 1) ∧
      c5official ≠ [] ∧ missing_tracks_for c5dbA "r" c5official ≠ [] ∧
      queuedByQuery [] (albumModeQuery (c5track 1).artist (c5track 1).title) = false ∧
      (∀ i ∈ missing_tracks_for c5dbA "r" c5official,
          queuedByQuery [] ((c5track 1).artist ++ " - " ++ i.title) = false) ∧
      ((missing_tracks_for c5dbA "r" c5official).map
          (fun i => (c5track 1).artist ++ " - " ++ i.title)).Nodup) ∧
    queue_missing_tracks_for_album c5dbA "r" c5official [] =
      (if albumModeCond (missing_tracks_for c5dbA "r" c5official).length
          c5official.length then
        [] ++ [albumItem (c5track 1).artist (c5track 1).title]
      else [] ++ (missing_tracks_for c5dbA "r" c5official).map
          (perTrackItem (c5track 1).artist)) :=
  ⟨⟨by decide, by decide, by decide, by decide, by decide, by decide⟩,
    album_audit_queueing.1 c5dbA "r" c5official [] (c5track 1)
      (by decide) (by decide) (by decide) (by decide) (by decide) (by decide)⟩

theorem mem_dedupFirst [DecidableEq α] :
    ∀ (seen l : List α) (x : α), x ∈ dedupFirst seen l ↔ x ∈ l ∧ x ∉ seen
  | seen, [], x => by simp [dedupFirst]
  | seen, a :: l, x => by
    by_cases ha : a ∈ seen
    · rw [dedupFirst, if_pos ha, mem_dedupFirst seen l x]
      constructor
      · exact fun ⟨h1, h2⟩ => ⟨List.mem_cons_of_mem a h1, h2⟩
      · rintro ⟨h1, h2⟩
        rcases List.mem_cons.mp h1 with rfl | h1
        · exact absurd ha h2
        · exact ⟨h1, h2⟩
    · rw [dedupFirst, if_neg ha]
      simp only [List.mem_cons, mem_dedupFirst (a :: seen) l x]
      constructor
      · rintro (rfl | ⟨h1, h2⟩)
        · exact ⟨Or.inl rfl, ha⟩
        · exact ⟨Or.inr h1, fun hs => h2 (Or.inr hs)⟩
      · rintro ⟨rfl | h1, h2⟩
        · exact Or.inl rfl
        · by_cases hxa : x = a
          · exact Or.inl hxa
          · exact Or.inr ⟨h1, fun hs => by
              rcases hs with h | h
              exacts [hxa h, h2 h]⟩

instance : IsTotal IncompleteRec incRecLe where
  total := by
    intro a b
    unfold incRecLe
    rcases lt_trichotomy a.artist b.artist with h | h | h
    · exact Or.inl (Or.inl h)
    · rcases le_total a.album b.album with h2 | h2
      · exact Or.inl (Or.inr ⟨h, h2⟩)
      · exact Or.inr (Or.inr ⟨h.symm, h2⟩)
    · exact Or.inr (Or.inl h)

instance : IsTrans IncompleteRec incRecLe where
  trans := by
    intro a b c hab hbc
    unfold incRecLe at *
    rcases hab with h1 | ⟨h1, h1'⟩ <;> rcases hbc with h2 | ⟨h2, h2'⟩
    · exact Or.inl (h1.trans h2)
    · exact Or.inl (h2 ▸ h1)
    · exact Or.inl (h1 ▸ h2)
    · exact Or.inr ⟨h1.trans h2, h1'.trans h2'⟩

/-- C4 (amended): a record is reported exactly for the releases having
an album row and at least one joined row with a non-null local path,
whose count of distinct `track_number` values (disc numbers do not enter
the count) is below the album total; the output is ordered by artist
then album title; and each record carries that distinct count, with
`missing = total - have`. -/
theorem incomplete_albums_characterization :
    (∀ (db : DB) (rec : IncompleteRec),
        rec ∈ get_incomplete_albums db ↔
          ∃ r, (∃ t ∈ db.tracks, t.release_mbid = some r ∧ t.local_path.isSome = true) ∧
            incompleteRecFor db r = some rec) ∧
    (∀ db : DB, (get_incomplete_albums db).Sorted incRecLe) ∧
    (∀ (db : DB) (r : String) (rec : IncompleteRec),
        incompleteRecFor db r = some rec →
          rec.have_count = distinctTrackNumberCount db r ∧
          rec.have_count < rec.total ∧ rec.missing = rec.total - rec.have_count) := by
  refine ⟨?_, ?_, ?_⟩
  · intro db rec
    rw [get_incomplete_albums, List.mem_insertionSort, List.mem_filterMap]
    constructor
    · rintro ⟨r, hr, hrec⟩
      rw [releaseKeys, mem_dedupFirst] at hr
      rcases (List.mem_filterMap.mp hr.1) with ⟨t, ht, htr⟩
      have ht' := List.mem_filter.mp ht
      exact ⟨r, ⟨t, ht'.1, htr, by simpa using ht'.2⟩, hrec⟩
    · rintro ⟨r, ⟨t, ht, htr, htl⟩, hrec⟩
      refine ⟨r, ?_, hrec⟩
      rw [releaseKeys, mem_dedupFirst]
      refine ⟨List.mem_filterMap.mpr ⟨t, List.mem_filter.mpr ⟨ht, by simpa using htl⟩, htr⟩,
        List.not_mem_nil r⟩
  · intro db
    exact List.sorted_insertionSort _ _
  · intro db r rec hrec
    unfold incompleteRecFor at hrec
    split at hrec
    · exact absurd hrec (by simp)
    · split at hrec
      · exact absurd hrec (by simp)
      · dsimp only at hrec
        split at hrec
        · rename_i hlt
          cases hrec
          exact ⟨rfl, hlt, rfl⟩
        · exact absurd hrec (by simp)

/-- C4 witness: the two-disc release is reported by the source query,
its record showing one distinct track number of two total. -/
theorem incomplete_albums_characterization_witness :
    (incompleteRecFor c4db "r" =
        some ⟨"Z", "Alb", "r", 1, 2, 1⟩) ∧
      ((⟨"Z", "Alb", "r", 1, 2, 1⟩ : IncompleteRec).have_count =
          distinctTrackNumberCount c4db "r" ∧
        (⟨"Z", "Alb", "r", 1, 2, 1⟩ : IncompleteRec).have_count <
          (⟨"Z", "Alb", "r", 1, 2, 1⟩ : IncompleteRec).total ∧
        (⟨"Z", "Alb", "r", 1, 2, 1⟩ : IncompleteRec).missing =
          (⟨"Z", "Alb", "r", 1, 2, 1⟩ : IncompleteRec).total -
            (⟨"Z", "Alb", "r", 1, 2, 1⟩ : IncompleteRec).have_count) :=
  ⟨by decide, incomplete_albums_characterization.2.2 c4db "r" _ (by decide)⟩

/-- C4 counterexample: on the two-disc release the claim's description
(distinct `(disc, track)` pairs; every release with `have < total`)
disagrees with the source query, which counts distinct `track_number`
values only: the claim reports nothing, the code reports the release as
incomplete. -/
theorem incomplete_albums_disc_pair_counterexample :
    incomplete_albums_spec c4db = [] ∧ get_incomplete_albums c4db ≠ [] := by
  constructor
  · decide
  · decide

instance : IsTotal (Int × String) (fun x y => y.1 ≤ x.1) :=
  ⟨fun a b => le_total b.1 a.1⟩

instance : IsTrans (Int × String) (fun x y => y.1 ≤ x.1) :=
  ⟨fun _ _ _ h1 h2 => le_trans h2 h1⟩

/-- The head of the stable descending sort attains the maximum score;
tie of the top two scores means the maximum is attained at least twice,
a strict winner means it is attained exactly once and pins down the
unique maximal candidate. -/
theorem sorted_candidates_facts (cds : List (Int × String)) (a b : Int × String)
    (t : List (Int × String))
    (hS : List.insertionSort (fun x y : Int × String => y.1 ≤ x.1) cds = a :: b :: t) :
    (cds.map (·.1)).maximum = some a.1 ∧
    (a.1 = b.1 → 2 ≤ (cds.map (·.1)).count a.1) ∧
    (a.1 ≠ b.1 → (cds.map (·.1)).count a.1 = 1 ∧
      ∀ w, (a.1, w) ∈ cds → (a.1, w) = a) := by
  have hperm : (a :: b :: t).Perm cds := hS ▸ List.perm_insertionSort _ cds
  have hsorted : (a :: b :: t).Sorted (fun x y : Int × String => y.1 ≤ x.1) := by
    rw [← hS]; exact List.sorted_insertionSort _ cds
  have hrel : ∀ x ∈ b :: t, x.1 ≤ a.1 := (List.sorted_cons.mp hsorted).1
  have hrelb : ∀ x ∈ t, x.1 ≤ b.1 :=
    (List.sorted_cons.mp (List.sorted_cons.mp hsorted).2).1
  have hcount : ∀ n : Int, (cds.map (·.1)).count n = ((a :: b :: t).map (·.1)).count n :=
    fun n => ((hperm.map (·.1)).count_eq n).symm
  refine ⟨?_, ?_, ?_⟩
  · have hmem : a.1 ∈ cds.map (·.1) :=
      List.mem_map_of_mem _ (hperm.mem_iff.mp (List.mem_cons_self a _))
    have hub : ∀ n ∈ cds.map (·.1), n ≤ a.1 := by
      intro n hn
      rcases List.mem_map.mp hn with ⟨x, hx, rfl⟩
      rcases List.mem_cons.mp (hperm.mem_iff.mpr hx) with rfl | hx'
      · exact le_refl _
      · exact hrel _ hx'
    exact List.maximum_eq_coe_iff.mpr ⟨hmem, hub⟩
  · intro hab
    rw [hcount]
    simp only [List.map_cons, List.count_cons, ← hab]
    simp
  · intro hab
    have hnot : a.1 ∉ (t.map (·.1)) := by
      intro hmem
      rcases List.mem_map.mp hmem with ⟨x, hx, hx1⟩
      have h1 : x.1 ≤ b.1 := hrelb x hx
      have h2 : b.1 ≤ a.1 := hrel b (List.mem_cons_self b t)
      have : a.1 = b.1 := le_antisymm (hx1 ▸ h1) h2
      exact hab this
    constructor
    · rw [hcount]
      simp only [List.map_cons, List.count_cons]
      rw [List.count_eq_zero.mpr hnot]
      simp [Ne.symm hab, hab]
    · intro w hw
      rcases List.mem_cons.mp (hperm.mem_iff.mpr hw) with h | h
      · exact h
      · exfalso
        rcases List.mem_cons.mp h with h2 | h2
        · have h3 : (a.1, w).1 = b.1 := congrArg Prod.fst h2
          exact hab h3
        · have h3 : (a.1, w).1 ∈ t.map (·.1) := List.mem_map_of_mem _ h2
          exact hnot h3

theorem perm_removeFirstPair {p : Int × String} :
    ∀ {l : List (Int × String)}, p ∈ l → l.Perm (p :: removeFirstPair p l)
  | [], h => absurd h (List.not_mem_nil p)
  | y :: ys, h => by
    rw [removeFirstPair]
    by_cases hyp : y = p
    · subst hyp
      rw [if_pos rfl]
    · rw [if_neg hyp]
      have hpy : p ∈ ys := by
        rcases List.mem_cons.mp h with h1 | h1
        · exact absurd h1.symm hyp
        · exact h1
      exact ((perm_removeFirstPair hpy).cons y).trans (List.Perm.swap p y _)

/-- C3 (amended): the per-group resolution commits exactly when the
group has at least two candidates, a strictly greatest score, a winner
whose re-read identity equals the group identity, a Track under that
identity, and a winning path that does not collide with another row's
unique `local_path`; on commit the catalog takes the path update plus
the cleared DuplicateRecord and the losing paths are the deletion
candidates; a score tie or an identity mismatch is reported (tie /
sanity failure) with the catalog untouched, and a missing Track, a
UNIQUE-violation or a group of fewer than two candidates also leaves
the catalog untouched (the latter two counted as errors, not
reported as unresolved). -/
theorem resolve_group_commit_characterization
    (tagRead : String → Option String) (db : DB) (mbid : String) (paths : List String) :
    (paths.length < 2 → resolveGroup tagRead db mbid paths = (db, {})) ∧
    (∀ M : Int, ((scoreCandidates paths).map (·.1)).maximum = some M →
      (2 ≤ ((scoreCandidates paths).map (·.1)).count M →
        resolveGroup tagRead db mbid paths = (db, { unresolvedTie := true })) ∧
      (((scoreCandidates paths).map (·.1)).count M = 1 → 2 ≤ paths.length →
        ∀ w, (M, w) ∈ scoreCandidates paths →
          (tagRead w ≠ some mbid →
            resolveGroup tagRead db mbid paths = (db, { sanityFailure := true })) ∧
          (tagRead w = some mbid →
            (get_track_by_mbid db mbid = none →
              resolveGroup tagRead db mbid paths = (db, { errored := true })) ∧
            ((get_track_by_mbid db mbid).isSome = true →
              update_track_local_path db mbid w = none →
              resolveGroup tagRead db mbid paths = (db, { errored := true })) ∧
            (∀ db1, (get_track_by_mbid db mbid).isSome = true →
              update_track_local_path db mbid w = some db1 →
              (resolveGroup tagRead db mbid paths).1 = clear_duplicate db1 mbid ∧
              (resolveGroup tagRead db mbid paths).2.committed = true ∧
              (resolveGroup tagRead db mbid paths).2.losers.Perm
                ((removeFirstPair (M, w) (scoreCandidates paths)).map (·.2)))))) := by
  have hlen : (List.insertionSort (fun x y : Int × String => y.1 ≤ x.1)
      (scoreCandidates paths)).length = paths.length := by
    rw [(List.perm_insertionSort _ _).length_eq, scoreCandidates, List.length_map]
  rcases hS : List.insertionSort (fun x y : Int × String => y.1 ≤ x.1)
      (scoreCandidates paths) with _ | ⟨a, _ | ⟨b, t⟩⟩
  · -- empty group
    have h0 : paths.length = 0 := by rw [← hlen, hS]; rfl
    refine ⟨fun _ => by unfold resolveGroup; rw [hS], ?_⟩
    intro M hM
    rw [scoreCandidates] at hM
    rcases paths with _ | ⟨p, ps⟩
    · simp at hM
    · simp at h0
  · -- singleton group
    have h1 : paths.length = 1 := by rw [← hlen, hS]; rfl
    refine ⟨fun _ => by unfold resolveGroup; rw [hS], ?_⟩
    intro M hM
    constructor
    · intro hc
      exfalso
      have : ((scoreCandidates paths).map (·.1)).length = 1 := by
        rw [List.length_map, scoreCandidates, List.length_map, h1]
      have hle := List.count_le_length M ((scoreCandidates paths).map (·.1))
      omega
    · intro _ h2
      omega
  · -- two or more candidates
    have h2 : 2 ≤ paths.length := by
      rw [← hlen, hS]; simp
    obtain ⟨hmax, htie, hstrict⟩ := sorted_candidates_facts _ a b t hS
    refine ⟨fun hlt => absurd h2 (by omega), ?_⟩
    intro M hM
    have hMa : M = a.1 := by
      rw [hmax] at hM
      exact (Option.some_inj.mp hM).symm
    subst hMa
    constructor
    · intro hc
      have hab : a.1 = b.1 := by
        by_contra hne
        have := (hstrict hne).1
        omega
      unfold resolveGroup
      rw [hS]
      simp only [if_pos hab]
    · intro hc _ w hw
      have hne : a.1 ≠ b.1 := by
        intro hab
        have := htie hab
        omega
      have hwa : (a.1, w) = a := (hstrict hne).2 w hw
      have hw2 : a.2 = w := by rw [← hwa]
      have haw : a ∈ scoreCandidates paths := by rw [← hwa] at hw ⊢; exact hw
      have hperm : (a :: b :: t).Perm (scoreCandidates paths) :=
        hS ▸ List.perm_insertionSort _ _
      constructor
      · intro htag
        unfold resolveGroup
        rw [hS]
        simp only [if_neg hne]
        rw [if_neg (by rw [hw2]; exact htag)]
      · intro htag
        refine ⟨?_, ?_, ?_⟩
        · intro htr
          unfold resolveGroup
          rw [hS]
          simp only [if_neg hne]
          rw [if_pos (by rw [hw2]; exact htag), htr]
        · intro htr hupd
          rcases htr' : get_track_by_mbid db mbid with _ | tr
          · rw [htr'] at htr; simp at htr
          · unfold resolveGroup
            rw [hS]
            simp only [if_neg hne]
            rw [if_pos (by rw [hw2]; exact htag), htr', hw2, hupd]
        · intro db1 htr hupd
          rcases htr' : get_track_by_mbid db mbid with _ | tr
          · rw [htr'] at htr; simp at htr
          · have hres : resolveGroup tagRead db mbid paths =
                (clear_duplicate db1 mbid,
                  { committed := true, losers := (b :: t).map (·.2) }) := by
              unfold resolveGroup
              rw [hS]
              simp only [if_neg hne]
              rw [if_pos (by rw [hw2]; exact htag), htr', hw2, hupd]
              rfl
            rw [hres]
            refine ⟨rfl, rfl, ?_⟩
            rw [hwa]
            have hpe : (scoreCandidates paths).Perm
                (a :: removeFirstPair a (scoreCandidates paths)) := by
              rw [← hwa]
              exact perm_removeFirstPair hw
            exact ((hperm.trans hpe).cons_inv).map (·.2)

/-- C3 counterexample: a two-candidate group with distinct scores and a
matching winner tag, but no Track under the group identity: the claim's
commit conditions hold, yet the code commits nothing, clears nothing and
emits no deletion candidates. -/
theorem resolve_group_missing_track_counterexample :
    (((scoreCandidates ["/a/x.flac", "/b/y.mp3"]).map (·.1)).maximum = some 110 ∧
      ((scoreCandidates ["/a/x.flac", "/b/y.mp3"]).map (·.1)).count 110 = 1 ∧
      (fun _ : String => some "m") "/a/x.flac" = some "m") ∧
    resolveGroup (fun _ => some "m") { tracks := [] } "m" ["/a/x.flac", "/b/y.mp3"] =
      ({ tracks := [] }, { errored := true }) := by
  constructor
  · exact ⟨by decide, by decide, rfl⟩
  · decide

/-- C3 witness: a committing group, exercising the characterization end
to end. -/
theorem resolve_group_commit_witness :
    (((scoreCandidates ["/a/x.flac", "/b/y.mp3"]).map (·.1)).count 110 = 1 ∧
      2 ≤ (["/a/x.flac", "/b/y.mp3"] : List String).length ∧
      (110, "/a/x.flac") ∈ scoreCandidates ["/a/x.flac", "/b/y.mp3"]) ∧
    (resolveGroup (fun _ => some "m") c3db "m" ["/a/x.flac", "/b/y.mp3"]).2.committed =
      true := by
  refine ⟨⟨by decide, by decide, by decide⟩, ?_⟩
  have h := (((resolve_group_commit_characterization (fun _ => some "m") c3db "m"
      ["/a/x.flac", "/b/y.mp3"]).2 110 (by decide)).2 (by decide) (by decide)
      "/a/x.flac" (by decide)).2 rfl
  exact (h.2.2 c3db1 (by decide) (by decide)).2.1

theorem foldl_invariant_mem {β α : Type} (step : β → α → β) (I : β → Prop) :
    ∀ (l : List α), (∀ b a, a ∈ l → I b → I (step b a)) → ∀ b, I b → I (l.foldl step b)
  | [], _, _, hb => hb
  | a :: l, h, b, hb =>
    foldl_invariant_mem step I l (fun b' a' ha' => h b' a' (List.mem_cons_of_mem a ha'))
      (step b a) (h b a (List.mem_cons_self a l) hb)

theorem fsLookup_map_write_other (fs : Fs) (p : String) (f : DeviceFile) (q : String)
    (hq : q ≠ p) :
    fsLookup (fs.map (fun e => if e.1 = p then (p, f) else e)) q = fsLookup fs q := by
  induction fs with
  | nil => rfl
  | cons e rest ih =>
    by_cases hep : e.1 = p
    · simp only [List.map_cons, if_pos hep, fsLookup]
      rw [if_neg (fun h : p = q => hq h.symm), if_neg (fun h : e.1 = q => hq (h ▸ hep))]
      exact ih
    · simp only [List.map_cons, if_neg hep, fsLookup]
      split
      · rfl
      · exact ih

theorem fsLookup_map_write_self (fs : Fs) (p : String) (f : DeviceFile)
    (h : fs.any (fun e => e.1 = p) = true) :
    fsLookup (fs.map (fun e => if e.1 = p then (p, f) else e)) p = some f := by
  induction fs with
  | nil => simp at h
  | cons e rest ih =>
    by_cases hep : e.1 = p
    · simp [List.map_cons, if_pos hep, fsLookup]
    · simp only [List.any_cons, Bool.or_eq_true, decide_eq_true_eq] at h
      rcases h with h | h
      · exact absurd h hep
      · simp only [List.map_cons, if_neg hep, fsLookup]
        exact ih h

theorem fsLookup_none_of_not_any (fs : Fs) (p : String)
    (h : fs.any (fun e => e.1 = p) = false) : fsLookup fs p = none := by
  induction fs with
  | nil => rfl
  | cons e rest ih =>
    simp only [List.any_cons, Bool.or_eq_false_iff, decide_eq_false_iff_not] at h
    rw [fsLookup, if_neg h.1]
    exact ih h.2

theorem fsLookup_append_single (fs : Fs) (p : String) (f : DeviceFile) (q : String) :
    fsLookup (fs ++ [(p, f)]) q =
      match fsLookup fs q with
      | some v => some v
      | none => if p = q then some f else none := by
  induction fs with
  | nil =>
    show fsLookup [(p, f)] q = if p = q then some f else none
    rw [fsLookup]
    split
    · rfl
    · rfl
  | cons e rest ih =>
    simp only [List.cons_append, fsLookup]
    split
    · rfl
    · exact ih

/-- The single characterizing fact about `fsWrite`. -/
theorem fsLookup_fsWrite (fs : Fs) (p : String) (f : DeviceFile) (q : String) :
    fsLookup (fsWrite fs p f) q = if q = p then some f else fsLookup fs q := by
  unfold fsWrite
  by_cases hany : fs.any (fun e => e.1 = p) = true
  · rw [if_pos hany]
    by_cases hq : q = p
    · subst hq
      rw [if_pos rfl, fsLookup_map_write_self fs q f hany]
    · rw [if_neg hq, fsLookup_map_write_other fs p f q hq]
  · have hfalse : fs.any (fun e => e.1 = p) = false := by
      cases h : fs.any (fun e => e.1 = p)
      · rfl
      · exact absurd h hany
    rw [if_neg hany, fsLookup_append_single]
    have hnone : fsLookup fs p = none := fsLookup_none_of_not_any fs p hfalse
    by_cases hq : q = p
    · subst hq
      simp [hnone]
    · rw [if_neg hq]
      cases hl : fsLookup fs q with
      | none =>
        show (if p = q then some f else none) = none
        rw [if_neg (fun h : p = q => hq h.symm)]
      | some v => rfl

theorem convert_and_copy_localFs (env : SyncEnv) (st : SyncState) (t : Track) :
    (convert_and_copy env st t).1.localFs = st.localFs := by
  unfold convert_and_copy
  split
  · rfl
  · split
    · rfl
    · dsimp only
      split
      · rfl
      · split
        · rfl
        · rfl

theorem convert_and_copy_devFs_other (env : SyncEnv) (st : SyncState) (t : Track)
    (q : String) (hq : outputRel env t ≠ q) :
    fsLookup (convert_and_copy env st t).1.devFs q = fsLookup st.devFs q := by
  unfold convert_and_copy
  split
  · rfl
  · split
    · rfl
    · dsimp only
      split
      · rfl
      · split
        · dsimp only
          rw [fsLookup_fsWrite]
          rw [if_neg (fun h => hq h.symm)]
        · rfl

theorem convert_and_copy_devFs_presence (env : SyncEnv) (st : SyncState) (t : Track)
    (q : String) (hq : (fsLookup st.devFs q).isSome = true) :
    (fsLookup (convert_and_copy env st t).1.devFs q).isSome = true := by
  unfold convert_and_copy
  split
  · exact hq
  · split
    · exact hq
    · dsimp only
      split
      · exact hq
      · split
        · dsimp only
          rw [fsLookup_fsWrite]
          split
          · rfl
          · exact hq
        · exact hq

theorem sync_tracks_localFs (env : SyncEnv) (st : SyncState) (mode : SyncMode)
    (af : Option String) : (sync_tracks env st mode af).1.localFs = st.localFs := by
  unfold sync_tracks
  have := foldl_invariant_mem
    (fun (acc : SyncState × List Track) t =>
      let r := convert_and_copy env acc.1 t
      (r.1, acc.2 ++ r.2))
    (fun acc => acc.1.localFs = st.localFs)
    (tracks_to_sync st.db mode af)
    (fun b a _ hb => by
      dsimp only
      rw [convert_and_copy_localFs]
      exact hb)
    (st, []) rfl
  exact this

theorem sync_tracks_devFs_other (env : SyncEnv) (st : SyncState) (mode : SyncMode)
    (af : Option String) (q : String)
    (h : ∀ t ∈ tracks_to_sync st.db mode af, outputRel env t ≠ q) :
    fsLookup (sync_tracks env st mode af).1.devFs q = fsLookup st.devFs q := by
  unfold sync_tracks
  exact foldl_invariant_mem
    (fun (acc : SyncState × List Track) t =>
      let r := convert_and_copy env acc.1 t
      (r.1, acc.2 ++ r.2))
    (fun acc => fsLookup acc.1.devFs q = fsLookup st.devFs q)
    (tracks_to_sync st.db mode af)
    (fun b a ha hb => by
      dsimp only
      rw [convert_and_copy_devFs_other env b.1 a q (h a ha)]
      exact hb)
    (st, []) rfl

theorem sync_tracks_devFs_presence (env : SyncEnv) (st : SyncState) (mode : SyncMode)
    (af : Option String) (q : String) (hq : (fsLookup st.devFs q).isSome = true) :
    (fsLookup (sync_tracks env st mode af).1.devFs q).isSome = true := by
  unfold sync_tracks
  exact foldl_invariant_mem
    (fun (acc : SyncState × List Track) t =>
      let r := convert_and_copy env acc.1 t
      (r.1, acc.2 ++ r.2))
    (fun acc => (fsLookup acc.1.devFs q).isSome = true)
    (tracks_to_sync st.db mode af)
    (fun b a _ hb => convert_and_copy_devFs_presence env b.1 a q hb)
    (st, []) hq

theorem reconcile_fs_unchanged (env : SyncEnv) (st : SyncState) :
    (reconcile_ipod_to_db env st).devFs = st.devFs ∧
      (reconcile_ipod_to_db env st).localFs = st.localFs := by
  unfold reconcile_ipod_to_db
  dsimp only
  split
  · exact ⟨rfl, rfl⟩
  · exact ⟨rfl, rfl⟩

theorem import_devFs_unchanged (env : SyncEnv) (st : SyncState) :
    (import_missing_tracks_from_ipod env st).devFs = st.devFs := rfl

theorem import_localFs_preserve (env : SyncEnv) (st : SyncState) (p : String)
    (v : DeviceFile) (hp : fsLookup st.localFs p = some v) :
    fsLookup (import_missing_tracks_from_ipod env st).localFs p = some v := by
  unfold import_missing_tracks_from_ipod
  dsimp only
  refine foldl_invariant_mem _
    (fun lfs => fsLookup lfs p = some v)
    st.devFs
    (fun lfs e _ hl => ?_)
    st.localFs hp
  unfold importStep
  split
  · exact hl
  · split
    · split
      · exact hl
      · rename_i hdest
        rw [fsLookup_fsWrite]
        rw [if_neg (fun hpe : p = pjoin env.restoreBase e.1 => by
          rw [hpe] at hl
          rw [hl] at hdest
          exact hdest rfl)]
        exact hl
    · exact hl

theorem runPass_localFs_preserve (env : SyncEnv) (pa : Pass) (st : SyncState)
    (p : String) (v : DeviceFile) (hp : fsLookup st.localFs p = some v) :
    fsLookup (runPass env st pa).localFs p = some v := by
  cases pa with
  | forward mode af =>
    show fsLookup (sync_tracks env st mode af).1.localFs p = some v
    rw [sync_tracks_localFs]
    exact hp
  | reverseImport => exact import_localFs_preserve env st p v hp
  | deviceMatch =>
    show fsLookup (reconcile_ipod_to_db env st).localFs p = some v
    rw [(reconcile_fs_unchanged env st).2]
    exact hp

theorem runPass_devFs_presence (env : SyncEnv) (pa : Pass) (st : SyncState)
    (p : String) (hp : (fsLookup st.devFs p).isSome = true) :
    (fsLookup (runPass env st pa).devFs p).isSome = true := by
  cases pa with
  | forward mode af => exact sync_tracks_devFs_presence env st mode af p hp
  | reverseImport =>
    show (fsLookup (import_missing_tracks_from_ipod env st).devFs p).isSome = true
    rw [import_devFs_unchanged]
    exact hp
  | deviceMatch =>
    show (fsLookup (reconcile_ipod_to_db env st).devFs p).isSome = true
    rw [(reconcile_fs_unchanged env st).1]
    exact hp

/-- C1 (amended): across any sequence of forward-sync,
reverse-reconciliation and device-match passes no file is deleted from
either filesystem and every local file keeps its content; the
reverse-reconciliation and device-match passes leave the device tree
entirely unchanged (and device-match also the local tree), while a
forward pass touches the device tree only at candidate destination
paths — a pre-existing device file at such a path whose embedded
identity does not match is overwritten, so content preservation on the
device holds only away from those paths. -/
theorem passes_preserve_files :
    (∀ (env : SyncEnv) (passes : List Pass) (st : SyncState),
      (∀ p v, fsLookup st.localFs p = some v →
        fsLookup (runPasses env passes st).localFs p = some v) ∧
      (∀ p, (fsLookup st.devFs p).isSome = true →
        (fsLookup (runPasses env passes st).devFs p).isSome = true)) ∧
    (∀ (env : SyncEnv) (st : SyncState),
      (import_missing_tracks_from_ipod env st).devFs = st.devFs ∧
      (reconcile_ipod_to_db env st).devFs = st.devFs ∧
      (reconcile_ipod_to_db env st).localFs = st.localFs) ∧
    (∀ (env : SyncEnv) (st : SyncState) (mode : SyncMode) (af : Option String)
        (q : String),
      (∀ t ∈ tracks_to_sync st.db mode af, outputRel env t ≠ q) →
      fsLookup (sync_tracks env st mode af).1.devFs q = fsLookup st.devFs q) := by
  refine ⟨?_, ?_, ?_⟩
  · intro env passes
    induction passes with
    | nil => exact fun st => ⟨fun p v hp => hp, fun p hp => hp⟩
    | cons pa rest ih =>
      intro st
      constructor
      · intro p v hp
        exact (ih (runPass env st pa)).1 p v (runPass_localFs_preserve env pa st p v hp)
      · intro p hp
        exact (ih (runPass env st pa)).2 p (runPass_devFs_presence env pa st p hp)
  · exact fun env st =>
      ⟨import_devFs_unchanged env st, (reconcile_fs_unchanged env st).1,
        (reconcile_fs_unchanged env st).2⟩
  · exact fun env st mode af q h => sync_tracks_devFs_other env st mode af q h

/-- C1 counterexample: a forward pass overwrites an existing device file
in place when the embedded identity at the candidate destination does
not match, so a file present with identical content before a pass need
not have identical content afterwards. -/
theorem forward_pass_overwrites_mismatched_destination :
    fsLookup c1st.devFs "A/B/T.flac" = some c1old ∧
      fsLookup (runPass c1env c1st (Pass.forward SyncMode.fullLibrary none)).devFs
          "A/B/T.flac" = some c1new ∧
      c1new ≠ c1old := by
  refine ⟨by decide, by decide, by decide⟩

/-- C1 witness: a concrete three-pass sequence preserving a local file
and device-file presence. -/
theorem passes_preserve_files_witness :
    (fsLookup c1st.localFs "/lib/t.flac" = some c1src ∧
      (fsLookup c1st.devFs "A/B/T.flac").isSome = true) ∧
    fsLookup (runPasses c1env
        [Pass.deviceMatch, Pass.forward SyncMode.fullLibrary none, Pass.reverseImport]
        c1st).localFs "/lib/t.flac" = some c1src ∧
    (fsLookup (runPasses c1env
        [Pass.deviceMatch, Pass.forward SyncMode.fullLibrary none, Pass.reverseImport]
        c1st).devFs "A/B/T.flac").isSome = true :=
  ⟨⟨by decide, by decide⟩,
    (passes_preserve_files.1 c1env
        [Pass.deviceMatch, Pass.forward SyncMode.fullLibrary none, Pass.reverseImport]
        c1st).1 "/lib/t.flac" c1src (by decide),
    (passes_preserve_files.1 c1env
        [Pass.deviceMatch, Pass.forward SyncMode.fullLibrary none, Pass.reverseImport]
        c1st).2 "A/B/T.flac" (by decide)⟩

theorem pjoin_right_inj (a : String) {b1 b2 : String} (h : pjoin a b1 = pjoin a b2) :
    b1 = b2 := by
  have strCancel : ∀ (s t1 t2 : String), s ++ t1 = s ++ t2 → t1 = t2 := by
    intro s t1 t2 hs
    have h2 := congrArg String.data hs
    rw [String.data_append, String.data_append] at h2
    have h3 := List.append_cancel_left h2
    cases t1
    cases t2
    simp only at h3
    rw [h3]
  unfold pjoin at h
  split at h
  · exact h
  · split at h
    · exact strCancel a b1 b2 h
    · exact strCancel (a ++ "/") b1 b2 h

theorem lastLookup_mem {pairs : List (String × String)} {m lp : String}
    (h : lastLookup pairs m = some lp) : ∃ k, (k, lp) ∈ pairs := by
  unfold lastLookup at h
  cases hf : pairs.reverse.find? (fun e => e.1 = m) with
  | none =>
    rw [hf] at h
    exact Option.noConfusion h
  | some pr =>
    rw [hf] at h
    have h2 : pr.2 = lp := Option.some_inj.mp h
    have h3 : (pr.1, lp) = pr := by rw [← h2]
    refine ⟨pr.1, ?_⟩
    rw [h3]
    exact List.mem_reverse.mp (List.mem_of_find?_eq_some hf)

/-- `shouldImport` depends on the local filesystem only through the
lookups of the catalog map's local paths. -/
theorem shouldImport_congr (pairs : List (String × String)) (l1 l2 : Fs)
    (f : DeviceFile)
    (h : ∀ pr ∈ pairs, fsLookup l1 pr.2 = fsLookup l2 pr.2) :
    shouldImport pairs l1 f = shouldImport pairs l2 f := by
  unfold shouldImport
  cases f.tag with
  | none => rfl
  | some m =>
    dsimp only
    cases hl : lastLookup pairs m with
    | none => rfl
    | some lp =>
      rcases lastLookup_mem hl with ⟨k, hk⟩
      have h2 : fsLookup l1 lp = fsLookup l2 lp := h (k, lp) hk
      dsimp only
      rw [h2]

/-- The three facts about the reverse-pass fold: paths that are no
entry's recovery destination keep their lookup; a supported, importable
entry with a free destination ends up copied there; a supported entry
that should not be imported leaves its destination untouched. -/
theorem import_fold_facts (pairs : List (String × String)) (rb : String)
    (exts : List String) :
    ∀ (entries : List (String × DeviceFile)) (lfs : Fs),
      (entries.map (·.1)).Nodup →
      (∀ pr ∈ pairs, ∀ e ∈ entries, pr.2 ≠ pjoin rb e.1) →
      ((∀ p, (∀ e ∈ entries, p ≠ pjoin rb e.1) →
        fsLookup (entries.foldl (importStep pairs rb exts) lfs) p = fsLookup lfs p) ∧
      (∀ e ∈ entries, hasSupportedExt (basename e.1) exts = true →
        (shouldImport pairs lfs e.2 = true →
          fsLookup lfs (pjoin rb e.1) = none →
          fsLookup (entries.foldl (importStep pairs rb exts) lfs) (pjoin rb e.1) =
            some e.2) ∧
        (shouldImport pairs lfs e.2 = false →
          fsLookup (entries.foldl (importStep pairs rb exts) lfs) (pjoin rb e.1) =
            fsLookup lfs (pjoin rb e.1))))
  | [], lfs, _, _ => ⟨fun _ _ => rfl, fun e he => absurd he (List.not_mem_nil e)⟩
  | e0 :: rest, lfs, hnodup, hdisj => by
    have hnd : e0.1 ∉ (rest.map (·.1)) ∧ (rest.map (·.1)).Nodup := by
      rw [List.map_cons, List.nodup_cons] at hnodup
      exact hnodup
    have hnodup' : (rest.map (·.1)).Nodup := hnd.2
    have hdisj' : ∀ pr ∈ pairs, ∀ e ∈ rest, pr.2 ≠ pjoin rb e.1 :=
      fun pr hpr e he => hdisj pr hpr e (List.mem_cons_of_mem e0 he)
    have ihAll := import_fold_facts pairs rb exts rest (importStep pairs rb exts lfs e0)
      hnodup' hdisj'
    -- the step touches at most the destination of `e0`
    have hstep_other : ∀ p, p ≠ pjoin rb e0.1 →
        fsLookup (importStep pairs rb exts lfs e0) p = fsLookup lfs p := by
      intro p hp
      unfold importStep
      split
      · rfl
      · split
        · split
          · rfl
          · rw [fsLookup_fsWrite, if_neg hp]
        · rfl
    have hpairs_same : ∀ pr ∈ pairs,
        fsLookup (importStep pairs rb exts lfs e0) pr.2 = fsLookup lfs pr.2 :=
      fun pr hpr => hstep_other pr.2 (hdisj pr hpr e0 (List.mem_cons_self e0 rest))
    have hsi_same : ∀ f, shouldImport pairs (importStep pairs rb exts lfs e0) f =
        shouldImport pairs lfs f :=
      fun f => shouldImport_congr pairs _ lfs f hpairs_same
    have hdest_ne : ∀ e ∈ rest, pjoin rb e0.1 ≠ pjoin rb e.1 := by
      intro e he hEq
      exact hnd.1 ((pjoin_right_inj rb hEq) ▸ List.mem_map_of_mem (·.1) he)
    constructor
    · intro p hp
      rw [List.foldl_cons]
      rw [ihAll.1 p (fun e he => hp e (List.mem_cons_of_mem e0 he))]
      exact hstep_other p (hp e0 (List.mem_cons_self e0 rest))
    · intro e he hext
      rcases List.mem_cons.mp he with rfl | he'
      · -- the head entry itself
        constructor
        · intro hsi hfree
          rw [List.foldl_cons]
          have hstep : importStep pairs rb exts lfs e =
              fsWrite lfs (pjoin rb e.1) e.2 := by
            unfold importStep
            rw [if_neg (by simp [hext]), if_pos hsi, hfree]
            rfl
          rw [ihAll.1 (pjoin rb e.1) (fun e' he' => hdest_ne e' he'), hstep,
            fsLookup_fsWrite, if_pos rfl]
        · intro hsi
          rw [List.foldl_cons]
          have hstep : importStep pairs rb exts lfs e = lfs := by
            unfold importStep
            rw [if_neg (by simp [hext]), if_neg (by simp [hsi])]
          rw [ihAll.1 (pjoin rb e.1) (fun e' he' => hdest_ne e' he'), hstep]
      · -- an entry further down the list
        have hde : pjoin rb e.1 ≠ pjoin rb e0.1 :=
          fun hEq => hdest_ne e he' hEq.symm
        constructor
        · intro hsi hfree
          rw [List.foldl_cons]
          exact (ihAll.2 e he' hext).1
            ((hsi_same e.2).trans hsi)
            ((hstep_other (pjoin rb e.1) hde).trans hfree)
        · intro hsi
          rw [List.foldl_cons]
          rw [(ihAll.2 e he' hext).2 ((hsi_same e.2).trans hsi)]
          exact hstep_other (pjoin rb e.1) hde

/-- C7 (amended): the reverse pass never moves, deletes or rewrites a
device file and never deletes or overwrites a local file; a supported
device file is copied to the recovery path mirroring its device-relative
path exactly when its embedded identity is unreadable, unknown to the
catalog map, or maps to a missing local file — unless the recovery
destination already exists, in which case it is skipped and the existing
recovery file kept; a file is left alone exactly when its identity is
truthy, known, and the mapped local file exists.  (Hypotheses: the
device walk yields distinct paths, and no catalogued local path lies at
a recovery destination.) -/
theorem reverse_reconciliation_characterization (env : SyncEnv) (st : SyncState)
    (hnodup : (st.devFs.map (·.1)).Nodup)
    (hdisj : ∀ pr ∈ mbid_to_path_pairs st.db, ∀ e ∈ st.devFs,
      pr.2 ≠ pjoin env.restoreBase e.1) :
    (import_missing_tracks_from_ipod env st).devFs = st.devFs ∧
    (∀ p v, fsLookup st.localFs p = some v →
      fsLookup (import_missing_tracks_from_ipod env st).localFs p = some v) ∧
    (∀ e ∈ st.devFs, hasSupportedExt (basename e.1) env.supportedExts = true →
      (shouldImport (mbid_to_path_pairs st.db) st.localFs e.2 = true →
        fsLookup st.localFs (pjoin env.restoreBase e.1) = none →
        fsLookup (import_missing_tracks_from_ipod env st).localFs
          (pjoin env.restoreBase e.1) = some e.2) ∧
      (shouldImport (mbid_to_path_pairs st.db) st.localFs e.2 = false →
        fsLookup (import_missing_tracks_from_ipod env st).localFs
          (pjoin env.restoreBase e.1) =
          fsLookup st.localFs (pjoin env.restoreBase e.1))) ∧
    (∀ (pairs : List (String × String)) (lfs : Fs) (f : DeviceFile),
      shouldImport pairs lfs f = false ↔
        ∃ m lp, f.tag = some m ∧ m ≠ "" ∧
          (pairs.any fun pr => pr.1 = m) = true ∧
          lastLookup pairs m = some lp ∧ (fsLookup lfs lp).isSome = true) := by
  have hfold := import_fold_facts (mbid_to_path_pairs st.db) env.restoreBase
    env.supportedExts st.devFs st.localFs hnodup hdisj
  refine ⟨import_devFs_unchanged env st,
    fun p v hp => import_localFs_preserve env st p v hp, ?_, ?_⟩
  · intro e he hext
    constructor
    · intro hsi hfree
      show fsLookup (st.devFs.foldl
        (importStep (mbid_to_path_pairs st.db) env.restoreBase env.supportedExts)
        st.localFs) (pjoin env.restoreBase e.1) = some e.2
      exact (hfold.2 e he hext).1 hsi hfree
    · intro hsi
      show fsLookup (st.devFs.foldl
        (importStep (mbid_to_path_pairs st.db) env.restoreBase env.supportedExts)
        st.localFs) (pjoin env.restoreBase e.1) =
          fsLookup st.localFs (pjoin env.restoreBase e.1)
      exact (hfold.2 e he hext).2 hsi
  · intro pairs lfs f
    cases htag : f.tag with
    | none =>
      constructor
      · intro hfalse
        unfold shouldImport at hfalse
        rw [htag] at hfalse
        exact absurd hfalse (by simp)
      · rintro ⟨m, lp, htag', _⟩
        exact Option.noConfusion htag'
    | some m =>
      constructor
      · intro hfalse
        unfold shouldImport at hfalse
        rw [htag] at hfalse
        dsimp only at hfalse
        split at hfalse
        · rename_i hc
          cases hlast : lastLookup pairs m with
          | none =>
            rw [hlast] at hfalse
            exact absurd hfalse (by simp)
          | some lp =>
            rw [hlast] at hfalse
            dsimp only at hfalse
            have hsome : (fsLookup lfs lp).isSome = true := by
              cases hopt : fsLookup lfs lp with
              | none => rw [hopt] at hfalse; exact absurd hfalse (by simp)
              | some v => rfl
            have hc2 : (decide (m ≠ "")) = true ∧
                (pairs.any fun pr => decide (pr.1 = m)) = true := by
              simpa [Bool.and_eq_true] using hc
            exact ⟨m, lp, rfl, of_decide_eq_true hc2.1, hc2.2, hlast, hsome⟩
        · exact absurd hfalse (by simp)
      · rintro ⟨m', lp, htag', hne, hany, hlast, hsome⟩
        have hmm : m' = m := (Option.some_inj.mp htag').symm
        subst hmm
        unfold shouldImport
        rw [htag]
        dsimp only
        rw [if_pos (by
          simp only [Bool.and_eq_true]
          exact ⟨decide_eq_true hne, hany⟩), hlast]
        dsimp only
        cases hopt : fsLookup lfs lp with
        | none => rw [hopt] at hsome; exact absurd hsome (by simp)
        | some v => rfl

/-- C7 counterexample: a device file whose embedded identity is
unreadable, hence importable, is nevertheless not copied when the
recovery area already holds a (different) file at the mirrored path;
the stale recovery file survives unchanged. -/
theorem reverse_reconciliation_skip_counterexample :
    shouldImport (mbid_to_path_pairs c7st.db) c7st.localFs c7dev = true ∧
      hasSupportedExt (basename "x.mp3") c1env.supportedExts = true ∧
      fsLookup (import_missing_tracks_from_ipod c1env c7st).localFs
        "/restore/x.mp3" = some c7old ∧
      c7old ≠ c7dev := ⟨by decide, by decide, by decide, by decide⟩

/-- C7 witness: a device file with an identity unknown to the catalog is
copied into the recovery area, while the device tree is unchanged. -/
theorem reverse_reconciliation_characterization_witness :
    ((c1st.devFs.map (·.1)).Nodup ∧
      (∀ pr ∈ mbid_to_path_pairs c1st.db, ∀ e ∈ c1st.devFs,
        pr.2 ≠ pjoin c1env.restoreBase e.1) ∧
      hasSupportedExt (basename "A/B/T.flac") c1env.supportedExts = true ∧
      shouldImport (mbid_to_path_pairs c1st.db) c1st.localFs c1old = true ∧
      fsLookup c1st.localFs (pjoin c1env.restoreBase "A/B/T.flac") = none) ∧
    fsLookup (import_missing_tracks_from_ipod c1env c1st).localFs
        (pjoin c1env.restoreBase "A/B/T.flac") = some c1old ∧
    (import_missing_tracks_from_ipod c1env c1st).devFs = c1st.devFs :=
  ⟨⟨by decide, by decide, by decide, by decide, by decide⟩,
    ((reverse_reconciliation_characterization c1env c1st (by decide) (by decide)).2.2.1
        ("A/B/T.flac", c1old) (by decide) (by decide)).1 (by decide) (by decide),
    (reverse_reconciliation_characterization c1env c1st (by decide) (by decide)).1⟩

theorem find?_mbid_map (l : List Track) (f : Track → Track)
    (hf : ∀ r, (f r).mbid = r.mbid) (m : String) :
    (l.map f).find? (fun r => r.mbid = m) =
      (l.find? (fun r => r.mbid = m)).map f := by
  induction l with
  | nil => rfl
  | cons r rest ih =>
    simp only [List.map_cons, List.find?]
    rw [hf r]
    cases hd : decide (r.mbid = m) with
    | true => rfl
    | false => exact ih

theorem markFn_mbid (mbid path : String) (r : Track) :
    (if r.mbid = mbid then
        { r with synced_to_ipod := true, ipod_path := some path } else r).mbid =
      r.mbid := by
  by_cases h : r.mbid = mbid <;> simp [h]

theorem mark_get (db : DB) (mbid path m : String) :
    get_track_by_mbid (mark_track_synced db mbid path) m =
      (get_track_by_mbid db m).map (fun t => if t.mbid = mbid then
        { t with synced_to_ipod := true, ipod_path := some path } else t) := by
  unfold get_track_by_mbid mark_track_synced
  exact find?_mbid_map db.tracks _ (fun r => markFn_mbid mbid path r) m

theorem markFn_cases (mbid path : String) (r : Track) :
    (if r.mbid = mbid then
        { r with synced_to_ipod := true, ipod_path := some path } else r) = r ∨
    (if r.mbid = mbid then
        { r with synced_to_ipod := true, ipod_path := some path }
      else r).synced_to_ipod = true := by
  by_cases h : r.mbid = mbid <;> simp [h]

theorem tracksEvolved_refl (db : DB) : TracksEvolved db db :=
  ⟨rfl, rfl, fun _ _ h _ => h, fun _ h _ => h, fun _ h => h⟩

theorem tracksEvolved_trans {db0 db1 db2 : DB}
    (h01 : TracksEvolved db0 db1) (h12 : TracksEvolved db1 db2) :
    TracksEvolved db0 db2 :=
  ⟨h12.1.trans h01.1, h12.2.1.trans h01.2.1,
    fun m t h hs => h01.2.2.1 m t (h12.2.2.1 m t h hs) hs,
    fun t ht hs => h01.2.2.2.1 t (h12.2.2.2.1 t ht hs) hs,
    fun m h => h12.2.2.2.2 m (h01.2.2.2.2 m h)⟩

theorem tracksEvolved_mark (db : DB) (mbid path : String) :
    TracksEvolved db (mark_track_synced db mbid path) := by
  refine ⟨rfl, rfl, ?_, ?_, ?_⟩
  · intro m t h hs
    rw [mark_get] at h
    cases hg : get_track_by_mbid db m with
    | none => rw [hg] at h; exact Option.noConfusion h
    | some r =>
      rw [hg] at h
      have ht : (if r.mbid = mbid then
          { r with synced_to_ipod := true, ipod_path := some path } else r) = t :=
        Option.some_inj.mp h
      rcases markFn_cases mbid path r with hc | hc
      · rw [← ht, hc]
      · rw [ht] at hc
        rw [hc] at hs
        exact absurd hs (by simp)
  · intro t ht hs
    unfold mark_track_synced at ht
    rcases List.mem_map.mp ht with ⟨r, hr, hrt⟩
    rcases markFn_cases mbid path r with hc | hc
    · rw [← hrt, hc]
      exact hr
    · rw [hrt] at hc
      rw [hc] at hs
      exact absurd hs (by simp)
  · intro m h r hr hm
    unfold mark_track_synced at hr
    rcases List.mem_map.mp hr with ⟨r0, hr0, hrt⟩
    rcases markFn_cases mbid path r0 with hc | hc
    · have hrr0 : r = r0 := hrt ▸ hc
      rw [hrr0]
      exact h r0 hr0 (by rw [← hrr0]; exact hm)
    · rw [hrt] at hc
      exact hc

theorem syncedIn_mark_self (db : DB) (mbid path : String) :
    syncedIn (mark_track_synced db mbid path) mbid := by
  intro r hr hm
  unfold mark_track_synced at hr
  rcases List.mem_map.mp hr with ⟨r0, _, hrt⟩
  by_cases h : r0.mbid = mbid
  · rw [← hrt, if_pos h]
  · rw [← hrt, if_neg h] at hm
    exact absurd hm h

theorem convert_and_copy_evolves (env : SyncEnv) (st : SyncState) (t : Track) :
    TracksEvolved st.db (convert_and_copy env st t).1.db := by
  unfold convert_and_copy
  split
  · exact tracksEvolved_refl _
  · split
    · exact tracksEvolved_refl _
    · dsimp only
      split
      · exact tracksEvolved_mark _ _ _
      · split
        · exact tracksEvolved_mark _ _ _
        · exact tracksEvolved_refl _

theorem sync_tracks_evolves (env : SyncEnv) (st : SyncState) (mode : SyncMode)
    (af : Option String) : TracksEvolved st.db (sync_tracks env st mode af).1.db := by
  unfold sync_tracks
  exact foldl_invariant_mem
    (fun (acc : SyncState × List Track) t =>
      let r := convert_and_copy env acc.1 t
      (r.1, acc.2 ++ r.2))
    (fun acc => TracksEvolved st.db acc.1.db)
    (tracks_to_sync st.db mode af)
    (fun b a _ hb => by
      dsimp only
      exact tracksEvolved_trans hb (convert_and_copy_evolves env b.1 a))
    (st, []) (tracksEvolved_refl _)

theorem mem_dictInsert {kv : String × Track} {k : String} {v : Track} :
    ∀ {d : List (String × Track)}, kv ∈ dictInsert k v d → kv = (k, v) ∨ kv ∈ d
  | [], h => by
    rcases List.mem_cons.mp h with h | h
    · exact Or.inl h
    · exact absurd h (List.not_mem_nil kv)
  | (k', v') :: rest, h => by
    unfold dictInsert at h
    split at h
    · rcases List.mem_cons.mp h with h | h
      · exact Or.inl h
      · exact Or.inr (List.mem_cons_of_mem _ h)
    · rcases List.mem_cons.mp h with h | h
      · exact Or.inr (h ▸ List.mem_cons_self _ _)
      · rcases mem_dictInsert h with h | h
        · exact Or.inl h
        · exact Or.inr (List.mem_cons_of_mem _ h)

theorem dictInsert_mem_self (k : String) (v : Track) :
    ∀ (d : List (String × Track)), (k, v) ∈ dictInsert k v d
  | [] => List.mem_cons_self _ _
  | (k', v') :: rest => by
    unfold dictInsert
    split
    · exact List.mem_cons_self _ _
    · exact List.mem_cons_of_mem _ (dictInsert_mem_self k v rest)

theorem dictInsert_mem_preserve {k0 : String} {v0 : Track} (k : String) (v : Track)
    (hcanon : k = k0 → v = v0) :
    ∀ {d : List (String × Track)}, (k0, v0) ∈ d → (k0, v0) ∈ dictInsert k v d
  | [], h => absurd h (List.not_mem_nil _)
  | (k', v') :: rest, h => by
    unfold dictInsert
    split
    · rename_i hk
      rcases List.mem_cons.mp h with h | h
      · have hfst : k0 = k' := congrArg Prod.fst h
        have hk0 : k = k0 := (hfst.trans hk).symm
        have hEq : (k0, v0) = (k, v) := by rw [hcanon hk0, hk0]
        rw [hEq]
        exact List.mem_cons_self _ _
      · exact List.mem_cons_of_mem _ h
    · rcases List.mem_cons.mp h with h | h
      · exact h ▸ List.mem_cons_self _ _
      · exact List.mem_cons_of_mem _ (dictInsert_mem_preserve k v hcanon h)

theorem mem_playlist_tracks_canonical {db : DB} {pid : String} {u : Track}
    (h : u ∈ get_playlist_tracks db pid) : get_track_by_mbid db u.mbid = some u := by
  unfold get_playlist_tracks at h
  rcases List.mem_filterMap.mp h with ⟨l, _, hfind⟩
  have hpred := List.find?_some hfind
  have hmbid : u.mbid = l.track_mbid := of_decide_eq_true hpred
  unfold get_track_by_mbid
  rw [hmbid]
  exact hfind

/-- Soundness of the playlist-mode candidate dictionary: every entry is
keyed by its track's identity, passes the local/unsynced filter, is the
catalog's point-lookup result for that identity, and comes from some
playlist. -/
theorem playlists_dict_sound (db : DB) :
    ∀ kv ∈ db.playlists.foldl (fun acc p =>
        (get_playlist_tracks db p.playlist_id).foldl (fun acc t =>
          if t.local_path.isSome && !t.synced_to_ipod then dictInsert t.mbid t acc
          else acc) acc) [],
      kv.1 = kv.2.mbid ∧ kv.2.local_path.isSome = true ∧
        kv.2.synced_to_ipod = false ∧
        get_track_by_mbid db kv.2.mbid = some kv.2 ∧
        ∃ p ∈ db.playlists, kv.2 ∈ get_playlist_tracks db p.playlist_id := by
  refine foldl_invariant_mem _
    (fun d : List (String × Track) => ∀ kv ∈ d,
      kv.1 = kv.2.mbid ∧ kv.2.local_path.isSome = true ∧
      kv.2.synced_to_ipod = false ∧ get_track_by_mbid db kv.2.mbid = some kv.2 ∧
      ∃ p ∈ db.playlists, kv.2 ∈ get_playlist_tracks db p.playlist_id)
    db.playlists ?_ []
    (fun kv hkv => absurd hkv (List.not_mem_nil kv))
  intro d p hp hd
  refine foldl_invariant_mem _
    (fun d : List (String × Track) => ∀ kv ∈ d,
      kv.1 = kv.2.mbid ∧ kv.2.local_path.isSome = true ∧
      kv.2.synced_to_ipod = false ∧ get_track_by_mbid db kv.2.mbid = some kv.2 ∧
      ∃ p ∈ db.playlists, kv.2 ∈ get_playlist_tracks db p.playlist_id)
    (get_playlist_tracks db p.playlist_id) ?_ d hd
  intro d' u hu hd'
  dsimp only
  split
  · rename_i hcond
    intro kv hkv
    rcases mem_dictInsert hkv with rfl | hkv
    · have hc2 : u.local_path.isSome = true ∧ u.synced_to_ipod = false := by
        have := Bool.and_eq_true _ _ ▸ hcond
        exact ⟨this.1, by simpa using this.2⟩
      exact ⟨rfl, hc2.1, hc2.2, mem_playlist_tracks_canonical hu, ⟨p, hp, hu⟩⟩
    · exact hd' kv hkv
  · exact hd'

/-- Every forward-sync candidate is unsynced. -/
theorem tracks_to_sync_unsynced (db : DB) (mode : SyncMode) (af : Option String) :
    ∀ t ∈ tracks_to_sync db mode af, t.synced_to_ipod = false := by
  intro t ht
  cases mode with
  | fullLibrary =>
    unfold tracks_to_sync at ht
    simpa using (List.mem_filter.mp ht).2
  | selective =>
    unfold tracks_to_sync at ht
    dsimp only at ht
    cases af with
    | none => simpa using (List.mem_filter.mp ht).2
    | some f =>
      dsimp only at ht
      split at ht
      · simpa using (List.mem_filter.mp (List.mem_filter.mp ht).1).2
      · simpa using (List.mem_filter.mp ht).2
  | playlistsOnly =>
    unfold tracks_to_sync at ht
    rcases List.mem_map.mp ht with ⟨kv, hkv, hkvt⟩
    have hq := playlists_dict_sound db kv hkv
    rw [← hkvt]
    exact hq.2.2.1

/-- Every forward-sync candidate is a catalog row. -/
theorem tracks_to_sync_mem_tracks (db : DB) (mode : SyncMode) (af : Option String)
    (t : Track) (ht : t ∈ tracks_to_sync db mode af) : t ∈ db.tracks := by
  cases mode with
  | fullLibrary =>
    unfold tracks_to_sync at ht
    exact List.mem_of_mem_filter (List.mem_of_mem_filter ht)
  | selective =>
    unfold tracks_to_sync at ht
    dsimp only at ht
    cases af with
    | none => exact List.mem_of_mem_filter (List.mem_of_mem_filter ht)
    | some f =>
      dsimp only at ht
      split at ht
      · exact List.mem_of_mem_filter (List.mem_of_mem_filter (List.mem_of_mem_filter ht))
      · exact List.mem_of_mem_filter (List.mem_of_mem_filter ht)
  | playlistsOnly =>
    unfold tracks_to_sync at ht
    rcases List.mem_map.mp ht with ⟨kv, hkv, hkvt⟩
    have hq := playlists_dict_sound db kv hkv
    have := hq.2.2.2.1
    rw [hkvt] at this
    exact List.mem_of_find?_eq_some this

/-- Completeness of the inner per-playlist loop: a filtered canonical
track reached by the loop (or already present) ends up in the
dictionary under its identity. -/
theorem inner_fold_complete (db : DB) (t : Track)
    (hct : get_track_by_mbid db t.mbid = some t) :
    ∀ (ts : List Track) (d : List (String × Track)),
      (∀ u ∈ ts, get_track_by_mbid db u.mbid = some u) →
      ((t.mbid, t) ∈ d ∨
        (t ∈ ts ∧ t.local_path.isSome = true ∧ t.synced_to_ipod = false)) →
      (t.mbid, t) ∈ ts.foldl (fun acc u =>
        if u.local_path.isSome && !u.synced_to_ipod then dictInsert u.mbid u acc
        else acc) d
  | [], d, _, h => by
    rcases h with h | h
    · exact h
    · exact absurd h.1 (List.not_mem_nil t)
  | u :: us, d, hcanon, h => by
    rw [List.foldl_cons]
    have hkey : u.mbid = t.mbid → u = t := by
      intro hk
      have hcu := hcanon u (List.mem_cons_self u us)
      rw [hk] at hcu
      exact (Option.some_inj.mp (hct.symm.trans hcu)).symm
    apply inner_fold_complete db t hct us _
      (fun u' hu' => hcanon u' (List.mem_cons_of_mem u hu'))
    rcases h with hmem | ⟨htmem, hloc, hsync⟩
    · left
      dsimp only
      split
      · exact dictInsert_mem_preserve u.mbid u hkey hmem
      · exact hmem
    · rcases List.mem_cons.mp htmem with rfl | htmem'
      · left
        dsimp only
        rw [if_pos (by simp [hloc, hsync])]
        exact dictInsert_mem_self t.mbid t _
      · right
        exact ⟨htmem', hloc, hsync⟩

/-- Completeness of the playlist-mode candidate fold. -/
theorem outer_fold_complete (db : DB) (t : Track)
    (hct : get_track_by_mbid db t.mbid = some t)
    (hloc : t.local_path.isSome = true) (hsync : t.synced_to_ipod = false) :
    ∀ (ps : List PlaylistRow) (d : List (String × Track)),
      (∀ (p : PlaylistRow), ∀ u ∈ get_playlist_tracks db p.playlist_id,
        get_track_by_mbid db u.mbid = some u) →
      ((t.mbid, t) ∈ d ∨ ∃ p ∈ ps, t ∈ get_playlist_tracks db p.playlist_id) →
      (t.mbid, t) ∈ ps.foldl (fun acc p =>
        (get_playlist_tracks db p.playlist_id).foldl (fun acc u =>
          if u.local_path.isSome && !u.synced_to_ipod then dictInsert u.mbid u acc
          else acc) acc) d
  | [], d, _, h => by
    rcases h with h | ⟨p, hp, _⟩
    · exact h
    · exact absurd hp (List.not_mem_nil p)
  | p0 :: ps, d, hcanon, h => by
    rw [List.foldl_cons]
    apply outer_fold_complete db t hct hloc hsync ps _ hcanon
    rcases h with hmem | ⟨p, hp, htp⟩
    · left
      exact inner_fold_complete db t hct _ d (fun u hu => hcanon p0 u hu) (Or.inl hmem)
    · rcases List.mem_cons.mp hp with rfl | hp'
      · left
        exact inner_fold_complete db t hct _ d (fun u hu => hcanon p u hu)
          (Or.inr ⟨htp, hloc, hsync⟩)
      · right
        exact ⟨p, hp', htp⟩

/-- Playlist joins transfer backwards along a forward-pass catalog
evolution for unsynced tracks. -/
theorem playlist_tracks_transfer {db0 db1 : DB} (hEv : TracksEvolved db0 db1)
    (pid : String) (t : Track) (ht : t ∈ get_playlist_tracks db1 pid)
    (hsync : t.synced_to_ipod = false) : t ∈ get_playlist_tracks db0 pid := by
  unfold get_playlist_tracks at ht ⊢
  rw [hEv.2.1] at ht
  rcases List.mem_filterMap.mp ht with ⟨l, hl, hfind⟩
  exact List.mem_filterMap.mpr ⟨l, hl, hEv.2.2.1 l.track_mbid t hfind hsync⟩

/-- The second run's candidate set is contained in the first run's. -/
theorem tracks_to_sync_transfer {db0 db1 : DB} (hEv : TracksEvolved db0 db1)
    (mode : SyncMode) (af : Option String) (t : Track)
    (ht : t ∈ tracks_to_sync db1 mode af) : t ∈ tracks_to_sync db0 mode af := by
  have hsync : t.synced_to_ipod = false := tracks_to_sync_unsynced db1 mode af t ht
  cases mode with
  | fullLibrary =>
    unfold tracks_to_sync at ht ⊢
    have h1 := List.mem_filter.mp ht
    have h2 := List.mem_filter.mp h1.1
    exact List.mem_filter.mpr
      ⟨List.mem_filter.mpr ⟨hEv.2.2.2.1 t h2.1 hsync, h2.2⟩, h1.2⟩
  | selective =>
    unfold tracks_to_sync at ht ⊢
    dsimp only at ht ⊢
    cases af with
    | none =>
      have h1 := List.mem_filter.mp ht
      have h2 := List.mem_filter.mp h1.1
      exact List.mem_filter.mpr
        ⟨List.mem_filter.mpr ⟨hEv.2.2.2.1 t h2.1 hsync, h2.2⟩, h1.2⟩
    | some f =>
      dsimp only at ht ⊢
      split at ht <;> rename_i hf
      · rw [if_pos hf]
        have h0 := List.mem_filter.mp ht
        have h1 := List.mem_filter.mp h0.1
        have h2 := List.mem_filter.mp h1.1
        exact List.mem_filter.mpr ⟨List.mem_filter.mpr
          ⟨List.mem_filter.mpr ⟨hEv.2.2.2.1 t h2.1 hsync, h2.2⟩, h1.2⟩, h0.2⟩
      · rw [if_neg hf]
        have h1 := List.mem_filter.mp ht
        have h2 := List.mem_filter.mp h1.1
        exact List.mem_filter.mpr
          ⟨List.mem_filter.mpr ⟨hEv.2.2.2.1 t h2.1 hsync, h2.2⟩, h1.2⟩
  | playlistsOnly =>
    unfold tracks_to_sync at ht ⊢
    rcases List.mem_map.mp ht with ⟨kv, hkv, hkvt⟩
    have hq := playlists_dict_sound db1 kv hkv
    obtain ⟨p, hp, htp⟩ := hq.2.2.2.2
    have hc1 : get_track_by_mbid db1 t.mbid = some t := by
      have := hq.2.2.2.1
      rw [hkvt] at this
      exact this
    have hc0 : get_track_by_mbid db0 t.mbid = some t := hEv.2.2.1 t.mbid t hc1 hsync
    have hloc : t.local_path.isSome = true := by
      have := hq.2.1
      rw [hkvt] at this
      exact this
    have htp0 : t ∈ get_playlist_tracks db0 p.playlist_id :=
      playlist_tracks_transfer hEv p.playlist_id t (hkvt ▸ htp) hsync
    have hp0 : p ∈ db0.playlists := hEv.1 ▸ hp
    have hmem := outer_fold_complete db0 t hc0 hloc hsync db0.playlists []
      (fun p u hu => mem_playlist_tracks_canonical hu)
      (Or.inr ⟨p, hp0, htp0⟩)
    exact List.mem_map_of_mem (·.2) hmem

/-- When conversion always succeeds, a forward-pass fold marks every
processed candidate whose local source file exists. -/
theorem sync_fold_marks (env : SyncEnv) (hconv : ∀ u, env.convOk u = true) :
    ∀ (cands : List Track) (st0 : SyncState) (acc0 : List Track) (t : Track),
      t ∈ cands →
      (∃ lp, t.local_path = some lp ∧ (fsLookup st0.localFs lp).isSome = true) →
      syncedIn (cands.foldl (fun acc u =>
        let r := convert_and_copy env acc.1 u
        (r.1, acc.2 ++ r.2)) (st0, acc0)).1.db t.mbid
  | [], _, _, t, ht, _ => absurd ht (List.not_mem_nil t)
  | u :: us, st0, acc0, t, ht, hloc => by
    rw [List.foldl_cons]
    rcases List.mem_cons.mp ht with rfl | ht'
    · have hstep : syncedIn (convert_and_copy env st0 t).1.db t.mbid := by
        rcases hloc with ⟨lp, hlp, hsome⟩
        unfold convert_and_copy
        rw [hlp]
        dsimp only
        cases hfl : fsLookup st0.localFs lp with
        | none =>
          rw [hfl] at hsome
          simp at hsome
        | some src =>
          dsimp only
          split
          · exact syncedIn_mark_self _ _ _
          · rw [if_pos (hconv t)]
            exact syncedIn_mark_self _ _ _
      refine foldl_invariant_mem _
        (fun acc : SyncState × List Track => syncedIn acc.1.db t.mbid) us ?_ _ ?_
      · intro b a _ hb
        dsimp only
        exact (convert_and_copy_evolves env b.1 a).2.2.2.2 t.mbid hb
      · dsimp only
        exact hstep
    · refine sync_fold_marks env hconv us (convert_and_copy env st0 u).1
        (acc0 ++ (convert_and_copy env st0 u).2) t ht' ?_
      rcases hloc with ⟨lp, hlp, hsome⟩
      refine ⟨lp, hlp, ?_⟩
      rw [convert_and_copy_localFs env st0 u]
      exact hsome

/-- A forward-pass fold over candidates whose local source files are all
absent changes nothing and performs no conversion. -/
theorem sync_fold_noop (env : SyncEnv) :
    ∀ (cands : List Track) (st0 : SyncState) (acc0 : List Track),
      (∀ t ∈ cands, ∀ lp, t.local_path = some lp →
        fsLookup st0.localFs lp = none) →
      cands.foldl (fun acc u =>
        let r := convert_and_copy env acc.1 u
        (r.1, acc.2 ++ r.2)) (st0, acc0) = (st0, acc0)
  | [], _, _, _ => rfl
  | u :: us, st0, acc0, h => by
    rw [List.foldl_cons]
    have hstep : convert_and_copy env st0 u = (st0, []) := by
      unfold convert_and_copy
      cases hlp : u.local_path with
      | none => rfl
      | some lp =>
        dsimp only
        rw [h u (List.mem_cons_self u us) lp hlp]
    have htail := sync_fold_noop env us st0 acc0
      (fun t ht => h t (List.mem_cons_of_mem u ht))
    dsimp only
    rw [hstep]
    dsimp only
    rw [List.append_nil]
    exact htail

/-- C6: with no catalog change between the runs and a conversion
collaborator that succeeds on every invocation, a second forward-sync
pass is a no-op: it reproduces the first run's state exactly, invokes
the conversion collaborator zero times, and every catalog row marked
synced after the first run is excluded from the second run's candidate
set in every sync mode. -/
theorem forward_sync_idempotent (env : SyncEnv) (st : SyncState) (mode : SyncMode)
    (af : Option String) (hconv : ∀ u, env.convOk u = true) :
    (sync_tracks env (sync_tracks env st mode af).1 mode af).1 =
      (sync_tracks env st mode af).1 ∧
    (sync_tracks env (sync_tracks env st mode af).1 mode af).2 = [] ∧
    ∀ t ∈ (sync_tracks env st mode af).1.db.tracks, t.synced_to_ipod = true →
      t ∉ tracks_to_sync (sync_tracks env st mode af).1.db mode af := by
  have hEv := sync_tracks_evolves env st mode af
  have hkey : ∀ t ∈ tracks_to_sync (sync_tracks env st mode af).1.db mode af,
      ∀ lp, t.local_path = some lp →
        fsLookup (sync_tracks env st mode af).1.localFs lp = none := by
    intro t ht lp hlp
    have hsync : t.synced_to_ipod = false :=
      tracks_to_sync_unsynced (sync_tracks env st mode af).1.db mode af t ht
    have ht0 : t ∈ tracks_to_sync st.db mode af :=
      tracks_to_sync_transfer hEv mode af t ht
    have htrow : t ∈ (sync_tracks env st mode af).1.db.tracks :=
      tracks_to_sync_mem_tracks (sync_tracks env st mode af).1.db mode af t ht
    by_contra hne
    have hsome : (fsLookup (sync_tracks env st mode af).1.localFs lp).isSome = true := by
      cases hopt : fsLookup (sync_tracks env st mode af).1.localFs lp with
      | none => exact absurd hopt hne
      | some v => rfl
    rw [sync_tracks_localFs env st mode af] at hsome
    have hmarked : syncedIn (sync_tracks env st mode af).1.db t.mbid :=
      sync_fold_marks env hconv (tracks_to_sync st.db mode af) st [] t ht0
        ⟨lp, hlp, hsome⟩
    have hfin := hmarked t htrow rfl
    rw [hsync] at hfin
    exact Bool.noConfusion hfin
  have hrun2 : sync_tracks env (sync_tracks env st mode af).1 mode af
      = ((sync_tracks env st mode af).1, []) :=
    sync_fold_noop env (tracks_to_sync (sync_tracks env st mode af).1.db mode af)
      (sync_tracks env st mode af).1 [] hkey
  refine ⟨by rw [hrun2], by rw [hrun2], ?_⟩
  intro t _ hs hmem
  have := tracks_to_sync_unsynced (sync_tracks env st mode af).1.db mode af t hmem
  rw [hs] at this
  exact Bool.noConfusion this

/-- C6 witness: the idempotence theorem instantiated at the concrete
sync environment and state, whose converter succeeds on every track. -/
theorem forward_sync_idempotent_witness :
    (sync_tracks c1env (sync_tracks c1env c1st .fullLibrary none).1 .fullLibrary none).1 =
      (sync_tracks c1env c1st .fullLibrary none).1 ∧
    (sync_tracks c1env (sync_tracks c1env c1st .fullLibrary none).1 .fullLibrary none).2 = [] ∧
    ∀ t ∈ (sync_tracks c1env c1st .fullLibrary none).1.db.tracks,
      t.synced_to_ipod = true →
      t ∉ tracks_to_sync (sync_tracks c1env c1st .fullLibrary none).1.db .fullLibrary none :=
  forward_sync_idempotent c1env c1st .fullLibrary none (fun _ => rfl)

/-- C10 witness. -/
theorem mark_synced_unknown_mbid_noop_witness :
    (∀ t ∈ c10db.tracks, t.mbid ≠ "other-id") ∧
      mark_track_synced c10db "other-id" "/dev/p" = c10db :=
  ⟨by decide, mark_synced_unknown_mbid_noop c10db "other-id" "/dev/p" (by decide)⟩

end DAP
